import Mathlib

/-!
# Verification of poly-ir-toolkit core query-processing code

A shallow embedding, in Lean 4, of the parts of the poly-ir-toolkit inverted
index search engine that the specification's claims speak about:

* the `ListData::NextGEQ` cursor contract (`index_reader.h`; the method body
  lives in `index_reader-inl.h`, which is not part of the provided sources, so
  the cursor walk is modelled from the specification's algorithm description);
* `QueryProcessor::KthScore`, the capacity-`k` min-heap threshold tracker
  (`query_processor.cc`);
* `QueryProcessor::IntersectLists` (ranked DAAT-AND), the DAAT-OR
  `QueryProcessor::MergeLists`, and `QueryProcessor::ProcessLayeredQuery`
  (dual-layered overlapping DAAT with its early-termination test);
* the query-line preprocessing and lexicon-lookup dispatch of
  `QueryProcessor::ExecuteQuery`;
* `QueryProcessor::LoadIndexProperties` (collection average document length);
* `LayeredIndexGenerator::CreateLayeredIndex` / `WriteMetaFile`
  (`index_layerify.cc`).

Machine floats of the source are modelled by exact ordered-field arithmetic;
C++ heaps (`std::push_heap`/`std::pop_heap`) are modelled by their multiset
content kept as a sorted list, whose head is the heap top.
-/

namespace PolyIR

/-- `ListData::kNoMoreDocs` — `numeric_limits<uint32_t>::max()`, the sentinel
returned by `NextGEQ` when the list is exhausted (`index_reader.h:382`). -/
def kNoMoreDocs : ℕ := 4294967295

/-- Modelled from the spec: the body of `ListData::NextGEQ` is in
`index_reader-inl.h`, which is missing from the sources; the spec (§4.8) says
the cursor walks forward from `curr_document_offset`, converting gaps to
absolute docIDs, until the absolute docID is `≥ target`, and returns it, or
the `u32::MAX` sentinel when the layer is exhausted.  The cursor is modelled
by the remaining suffix of the layer's docID sequence (the current posting
first); a call consumes the postings strictly below the target and leaves the
returned posting as the current one. -/
def nextGEQ : List ℕ → ℕ → ℕ × List ℕ
  | [], _ => (kNoMoreDocs, [])
  | d :: ds, t => if d < t then nextGEQ ds t else (d, d :: ds)

/-- Runs a cursor over a sequence of `NextGEQ` targets, collecting the
returned docIDs. -/
def runNextGEQ (docs : List ℕ) : List ℕ → List ℕ
  | [] => []
  | t :: ts => (nextGEQ docs t).1 :: runNextGEQ (nextGEQ docs t).2 ts

/-- The contract of a single `NextGEQ` answer `r` for target `t` on a layer
with docID set `docs`: either the sentinel with no docID `≥ t` present, or
the least docID of the layer that is `≥ t`. -/
def GEQSpec (docs : List ℕ) (t r : ℕ) : Prop :=
  (r = kNoMoreDocs ∧ ∀ d ∈ docs, d < t) ∨
  (r ∈ docs ∧ t ≤ r ∧ ∀ d ∈ docs, t ≤ d → r ≤ d)

lemma nextGEQ_eq (l : List ℕ) (t : ℕ) :
    nextGEQ l t =
      ((l.dropWhile (fun d => decide (d < t))).headD kNoMoreDocs,
        l.dropWhile (fun d => decide (d < t))) := by
  induction l with
  | nil => simp [nextGEQ, List.dropWhile]
  | cons d ds ih =>
    by_cases h : d < t
    · simpa [nextGEQ, List.dropWhile, h] using ih
    · simp [nextGEQ, List.dropWhile, h]

lemma runNextGEQ_length (docs ts : List ℕ) :
    (runNextGEQ docs ts).length = ts.length := by
  induction ts generalizing docs with
  | nil => rfl
  | cons t ts ih => simp [runNextGEQ, ih]

lemma head_dropWhile_not {p : ℕ → Bool} :
    ∀ {l : List ℕ} {x : ℕ}, (l.dropWhile p).head? = some x → p x = false := by
  intro l
  induction l with
  | nil => intro x h; simp [List.dropWhile] at h
  | cons d ds ih =>
    intro x h
    by_cases hp : p d
    · exact ih (by simpa [List.dropWhile, hp] using h)
    · simp [List.dropWhile, hp] at h
      simpa [← h] using hp

/-- On a strictly ascending layer, a single `nextGEQ` answer meets the
`GEQSpec` contract relative to the whole layer `front ++ rest`, provided all
already-consumed postings `front` are below the target. -/
lemma nextGEQ_spec (front rest : List ℕ) (t : ℕ)
    (hs : (front ++ rest).Pairwise (· < ·))
    (hf : ∀ x ∈ front, x < t) :
    GEQSpec (front ++ rest) t (nextGEQ rest t).1 := by
  rw [nextGEQ_eq]
  rcases hdw : rest.dropWhile (fun d => decide (d < t)) with _ | ⟨d, tail⟩
  · left
    refine ⟨rfl, ?_⟩
    intro x hx
    rcases List.mem_append.mp hx with hx | hx
    · exact hf x hx
    · have := List.dropWhile_eq_nil_iff.mp hdw x hx
      simpa using this
  · right
    simp only [List.headD_cons]
    have hdmem : d ∈ rest := by
      have : d ∈ rest.dropWhile (fun d => decide (d < t)) := by simp [hdw]
      exact (List.dropWhile_sublist _).mem this
    have hdge : t ≤ d := by
      have := @head_dropWhile_not (fun d => decide (d < t)) rest d
        (by simp [hdw])
      simpa using this
    refine ⟨List.mem_append.mpr (Or.inr hdmem), hdge, ?_⟩
    intro e he het
    rcases List.mem_append.mp he with he | he
    · exact absurd (hf e he) (by omega)
    · -- e is in rest: either in the consumed prefix (then < t, contradiction)
      -- or in the dropWhile suffix, whose head is d and which ascends.
      have hsplit := List.takeWhile_append_dropWhile (fun d => decide (d < t)) rest
      rw [← hsplit] at he
      rcases List.mem_append.mp he with he | he
      · have := List.mem_takeWhile_imp he
        simp at this
        omega
      · rw [hdw] at he
        rcases List.mem_cons.mp he with he | he
        · omega
        · -- strict ascent within the suffix
          have hrest : rest.Pairwise (· < ·) :=
            (List.pairwise_append.mp hs).2.1
          have hsuffix : (rest.dropWhile (fun d => decide (d < t))).Pairwise (· < ·) :=
            List.Pairwise.sublist (List.dropWhile_sublist _) hrest
          rw [hdw] at hsuffix
          have := (List.pairwise_cons.mp hsuffix).1 e he
          omega

lemma nextGEQ_snd_eq (l : List ℕ) (t : ℕ) :
    (nextGEQ l t).2 = l.dropWhile (fun d => decide (d < t)) := by
  rw [nextGEQ_eq]

/-- After a call, the answer is the head of the new cursor suffix (or the
sentinel on an empty suffix). -/
lemma nextGEQ_fst_eq (l : List ℕ) (t : ℕ) :
    (nextGEQ l t).1 = (nextGEQ l t).2.headD kNoMoreDocs := by
  rw [nextGEQ_eq]

lemma headD_le_nextGEQ (l : List ℕ) (t : ℕ) (hp : l.Pairwise (· < ·))
    (hb : ∀ d ∈ l, d < kNoMoreDocs) :
    l.headD kNoMoreDocs ≤ (nextGEQ l t).1 := by
  cases l with
  | nil => simp [nextGEQ]
  | cons d tl =>
    rw [nextGEQ_eq]
    rcases hdw : (d :: tl).dropWhile (fun x => decide (x < t)) with _ | ⟨e, tail⟩
    · have := hb d (List.mem_cons_self d tl)
      simp only [List.headD_cons, List.headD_nil]
      omega
    · simp only [List.headD_cons]
      have hemem : e ∈ d :: tl := by
        have : e ∈ (d :: tl).dropWhile (fun x => decide (x < t)) := by simp [hdw]
        exact (List.dropWhile_sublist _).mem this
      rcases List.mem_cons.mp hemem with he | he
      · simp [he]
      · have := (List.pairwise_cons.mp hp).1 e he
        simp
        omega

lemma runNextGEQ_chain :
    ∀ (ts rest : List ℕ), rest.Pairwise (· < ·) →
      (∀ d ∈ rest, d < kNoMoreDocs) →
      List.Chain' (· ≤ ·) (runNextGEQ rest ts) := by
  intro ts
  induction ts with
  | nil => intro rest _ _; simp [runNextGEQ]
  | cons t ts ih =>
    intro rest hp hb
    have hp' : (nextGEQ rest t).2.Pairwise (· < ·) := by
      rw [nextGEQ_snd_eq]; exact List.Pairwise.sublist (List.dropWhile_sublist _) hp
    have hb' : ∀ d ∈ (nextGEQ rest t).2, d < kNoMoreDocs := by
      intro d hdm
      rw [nextGEQ_snd_eq] at hdm
      exact hb d ((List.dropWhile_sublist _).mem hdm)
    rw [runNextGEQ, List.chain'_cons']
    refine ⟨?_, ih _ hp' hb'⟩
    intro y hy
    cases ts with
    | nil => simp [runNextGEQ] at hy
    | cons t' ts' =>
      simp only [runNextGEQ, List.head?] at hy
      have hy' : y = (nextGEQ (nextGEQ rest t).2 t').1 := by
        simpa using hy.symm
      rw [hy', nextGEQ_fst_eq rest t]
      exact headD_le_nextGEQ _ _ hp' hb'

lemma runNextGEQ_spec :
    ∀ (ts front rest : List ℕ),
      (front ++ rest).Pairwise (· < ·) →
      ts.Pairwise (· < ·) →
      (∀ x ∈ front, ∀ t ∈ ts, x < t) →
      ∀ i t r, ts.get? i = some t → (runNextGEQ rest ts).get? i = some r →
        GEQSpec (front ++ rest) t r := by
  intro ts
  induction ts with
  | nil => intro front rest _ _ _ i t r ht _; simp at ht
  | cons t0 ts ih =>
    intro front rest hs hts hf i t r ht hr
    cases i with
    | zero =>
      simp at ht
      simp [runNextGEQ] at hr
      subst ht
      rw [← hr]
      exact nextGEQ_spec front rest t0 hs
        (fun x hx => hf x hx t0 (List.mem_cons_self t0 ts))
    | succ i =>
      simp only [List.get?] at ht
      simp only [runNextGEQ, List.get?] at hr
      have hsplit : front ++ rest =
          (front ++ rest.takeWhile (fun d => decide (d < t0))) ++ (nextGEQ rest t0).2 := by
        rw [nextGEQ_snd_eq, List.append_assoc, List.takeWhile_append_dropWhile]
      rw [hsplit]
      refine ih (front ++ rest.takeWhile (fun d => decide (d < t0))) (nextGEQ rest t0).2
        (by rw [← hsplit]; exact hs) (List.pairwise_cons.mp hts).2 ?_ i t r ht hr
      intro x hx t' ht'
      rcases List.mem_append.mp hx with hx | hx
      · exact hf x hx t' (List.mem_cons_of_mem t0 ht')
      · have hxlt : x < t0 := by
          have := List.mem_takeWhile_imp hx
          simpa using this
        have := (List.pairwise_cons.mp hts).1 t' ht'
        omega

/-- **C1** For every list cursor opened by `IndexReader::OpenList` and every
strictly increasing sequence of targets passed to `ListData::NextGEQ` on that
cursor, the sequence of returned docIDs is non-decreasing, and each returned
value is either the smallest docID in the opened layer that is `≥` the
corresponding target, or the sentinel `u32::MAX` (`ListData::kNoMoreDocs`)
if no such docID exists.  (The cursor walk is modelled from the spec; the
body of `NextGEQ` is in `index_reader-inl.h`, absent from the sources.) -/
theorem nextGEQ_monotone_least (docs ts : List ℕ)
    (hdocs : List.Chain' (· < ·) docs)
    (hbound : ∀ d ∈ docs, d < kNoMoreDocs)
    (hts : List.Chain' (· < ·) ts) :
    List.Chain' (· ≤ ·) (runNextGEQ docs ts) ∧
    ∀ i t r, ts.get? i = some t → (runNextGEQ docs ts).get? i = some r →
      GEQSpec docs t r := by
  have hdocs' : docs.Pairwise (· < ·) := List.chain'_iff_pairwise.mp hdocs
  have hts' : ts.Pairwise (· < ·) := List.chain'_iff_pairwise.mp hts
  refine ⟨runNextGEQ_chain ts docs hdocs' hbound, ?_⟩
  have := runNextGEQ_spec ts [] docs (by simpa using hdocs') hts' (by simp)
  simpa using this

/-- Witness for `nextGEQ_monotone_least` at the concrete layer `[2, 5, 9]`
and target sequence `[1, 5, 7]`. -/
theorem nextGEQ_monotone_least_witness :
    List.Chain' (· ≤ ·) (runNextGEQ [2, 5, 9] [1, 5, 7]) ∧
    ∀ i t r, ([1, 5, 7] : List ℕ).get? i = some t →
      (runNextGEQ [2, 5, 9] [1, 5, 7]).get? i = some r →
      GEQSpec [2, 5, 9] t r :=
  nextGEQ_monotone_least [2, 5, 9] [1, 5, 7]
    (by simp [List.chain'_cons]) (by decide) (by simp [List.chain'_cons])

/-! ## `QueryProcessor::KthScore` (query_processor.cc:859-879)

The C++ function maintains the `scores` array as a `std::greater<float>`
binary min-heap of capacity `kth_score`; `scores[0]` is the smallest retained
score.  The heap is modelled by its multiset of scores kept as an ascending
sorted list whose head is the heap top. -/

variable {A : Type} [LinearOrder A]

/-- One call of `KthScore` acting on the heap contents: if fewer than `k`
scores are stored, the new score is inserted (`push_heap`); otherwise the
minimum is replaced only when the new score strictly exceeds it
(`new_score > scores[0]`). -/
def kthScoreStep (k : ℕ) (heap : List A) (s : A) : List A :=
  if heap.length < k then List.orderedInsert (· ≤ ·) s heap
  else
    match heap with
    | [] => []
    | m :: rest => if m < s then List.orderedInsert (· ≤ ·) s rest else m :: rest

lemma kthScoreStep_cons (k : ℕ) (m : A) (rest : List A) (s : A) :
    kthScoreStep k (m :: rest) s =
      if (m :: rest).length < k then List.orderedInsert (· ≤ ·) s (m :: rest)
      else if m < s then List.orderedInsert (· ≤ ·) s rest else m :: rest := by
  by_cases h : (m :: rest).length < k <;> simp [kthScoreStep, h]

lemma kthScoreStep_of_lt (k : ℕ) (heap : List A) (s : A)
    (h : heap.length < k) :
    kthScoreStep k heap s = List.orderedInsert (· ≤ ·) s heap := by
  cases heap with
  | nil =>
    simp [kthScoreStep, h]
    omega
  | cons m rest => rw [kthScoreStep_cons, if_pos h]

/-- The heap contents after the successive calls
`KthScore(s_1, scores, 0, k), …, KthScore(s_m, scores, m-1, k)`. -/
def kthScoreHeap (k : ℕ) (ss : List A) : List A :=
  ss.foldl (kthScoreStep k) []

/-- The value returned by the last of the calls above: `-FLT_MAX`
(modelled as `none`) while fewer than `k` scores were seen, else the heap
top `scores[0]`. -/
def kthScoreReturn (k : ℕ) (ss : List A) : Option A :=
  if (kthScoreHeap k ss).length < k then none else (kthScoreHeap k ss).head?

/-- The `j`-th largest element of a list, counting multiplicity (`j ≥ 1`);
`none` when the list has fewer than `j` elements. -/
def kthLargest (ss : List A) (j : ℕ) : Option A :=
  (List.insertionSort (· ≤ ·) ss).reverse[j - 1]?

lemma orderedInsert_append_left (s : A) (xs ys : List A)
    (h : ∀ x ∈ xs, ¬ s ≤ x) :
    List.orderedInsert (· ≤ ·) s (xs ++ ys) =
      xs ++ List.orderedInsert (· ≤ ·) s ys := by
  induction xs with
  | nil => simp
  | cons x xs ih =>
    have hx : ¬ s ≤ x := h x (List.mem_cons_self x xs)
    simp only [List.cons_append, List.orderedInsert, if_neg hx, List.append_eq]
    rw [ih (fun y hy => h y (List.mem_cons_of_mem x hy))]

lemma length_takeWhile_le_of_get (P : A → Bool) :
    ∀ (l : List A) (j : ℕ) (hj : j < l.length), P l[j] = false →
      (l.takeWhile P).length ≤ j := by
  intro l
  induction l with
  | nil => intro j hj; simp at hj
  | cons x xs ih =>
    intro j hj hP
    cases j with
    | zero =>
      simp at hP
      simp [List.takeWhile, hP]
    | succ j =>
      by_cases hx : P x
      · simp only [List.takeWhile_cons, if_pos hx, List.length_cons]
        have := ih j (by simpa using hj) (by simpa using hP)
        omega
      · simp only [List.takeWhile_cons, if_neg hx]
        simp

lemma insertionSort_append_singleton (ss : List A) (s : A) :
    List.insertionSort (· ≤ ·) (ss ++ [s]) =
      List.orderedInsert (· ≤ ·) s (List.insertionSort (· ≤ ·) ss) := by
  refine List.eq_of_perm_of_sorted ?_ (List.sorted_insertionSort _ _)
    (List.Sorted.orderedInsert s _ (List.sorted_insertionSort _ _))
  exact (List.perm_insertionSort _ _).trans
    ((List.perm_append_singleton s ss).trans
      ((List.Perm.cons s (List.perm_insertionSort _ _).symm).trans
        (List.perm_orderedInsert _ s _).symm))

lemma kthScoreStep_drop (k : ℕ) (hk : 0 < k) (Avs : List A)
    (hA : List.Sorted (· ≤ ·) Avs) (s : A) :
    kthScoreStep k (Avs.drop (Avs.length - k)) s =
      (List.orderedInsert (· ≤ ·) s Avs).drop (Avs.length + 1 - k) := by
  by_cases hm : Avs.length < k
  · have h0 : Avs.length - k = 0 := by omega
    have h1 : Avs.length + 1 - k = 0 := by omega
    rw [h0, h1, List.drop_zero, List.drop_zero, kthScoreStep_of_lt k Avs s hm]
  · push_neg at hm
    set j := Avs.length - k with hjdef
    have hjlt : j < Avs.length := by omega
    have hcons := List.drop_eq_getElem_cons (l := Avs) hjlt
    have hlen : (Avs.drop j).length = k := by
      rw [List.length_drop]; omega
    by_cases hs : Avs[j] < s
    · -- the new score displaces the heap minimum Avs[j]
      have hstep : kthScoreStep k (Avs.drop j) s =
          List.orderedInsert (· ≤ ·) s (Avs.drop (j + 1)) := by
        rw [hcons, kthScoreStep_cons]
        have : ¬ (Avs[j] :: Avs.drop (j + 1)).length < k := by
          rw [← hcons, hlen]; omega
        rw [if_neg this, if_pos hs]
      rw [hstep]
      have hsplit : List.orderedInsert (· ≤ ·) s Avs =
          Avs.take (j + 1) ++ List.orderedInsert (· ≤ ·) s (Avs.drop (j + 1)) := by
        conv_lhs => rw [← List.take_append_drop (j + 1) Avs]
        refine orderedInsert_append_left s _ _ ?_
        intro x hx
        have hxle : x ≤ Avs[j] := by
          rw [List.take_succ] at hx
          rcases List.mem_append.mp hx with hx | hx
          · refine hA.rel_of_mem_take_of_mem_drop hx ?_
            rw [hcons]
            exact List.mem_cons_self _ _
          · have : Avs[j]? = some Avs[j] := List.getElem?_eq_getElem hjlt
            rw [this] at hx
            simp at hx
            exact hx.le
        exact fun hcon => absurd (le_trans hcon hxle) (not_le.mpr hs)
      have htake : List.drop (Avs.length + 1 - k) (Avs.take (j + 1)) = [] := by
        refine List.drop_eq_nil_of_le ?_
        rw [List.length_take]
        omega
      have hzero : Avs.length + 1 - k - (Avs.take (j + 1)).length = 0 := by
        rw [List.length_take]
        omega
      rw [hsplit, List.drop_append_eq_append_drop, htake, hzero,
        List.drop_zero, List.nil_append]
    · -- the new score does not exceed the heap minimum: heap unchanged
      push_neg at hs
      have hstep : kthScoreStep k (Avs.drop j) s = Avs.drop j := by
        rw [hcons, kthScoreStep_cons]
        have : ¬ (Avs[j] :: Avs.drop (j + 1)).length < k := by
          rw [← hcons, hlen]; omega
        rw [if_neg this, if_neg (not_lt.mpr hs), ← hcons]
      rw [hstep, List.orderedInsert_eq_take_drop]
      set T := Avs.takeWhile (fun b => decide ¬ s ≤ b) with hT
      set D := Avs.dropWhile (fun b => decide ¬ s ≤ b) with hD
      have hTD : T ++ D = Avs := List.takeWhile_append_dropWhile _ _
      have hp : T.length ≤ j := by
        refine length_takeWhile_le_of_get _ Avs j hjlt ?_
        simp [hs]
      have hTnil : List.drop (Avs.length + 1 - k) T = [] := by
        refine List.drop_eq_nil_of_le ?_
        omega
      have h1 : Avs.length + 1 - k - T.length = (j - T.length) + 1 := by omega
      have hTnil2 : List.drop j T = [] := List.drop_eq_nil_of_le hp
      rw [List.drop_append_eq_append_drop, hTnil, List.nil_append, h1,
        List.drop_succ_cons]
      conv_lhs => rw [← hTD]
      rw [List.drop_append_eq_append_drop, hTnil2, List.nil_append]

lemma kthScoreHeap_eq (k : ℕ) (hk : 0 < k) (ss : List A) :
    kthScoreHeap k ss =
      (List.insertionSort (· ≤ ·) ss).drop (ss.length - k) := by
  induction ss using List.reverseRecOn with
  | nil => simp [kthScoreHeap]
  | append_singleton ss s ih =>
    have hfold : kthScoreHeap k (ss ++ [s]) =
        kthScoreStep k (kthScoreHeap k ss) s := by
      simp [kthScoreHeap, List.foldl_append]
    rw [hfold, ih]
    have hlen : ss.length = (List.insertionSort (· ≤ ·) ss).length :=
      (List.length_insertionSort _ _).symm
    rw [hlen, kthScoreStep_drop k hk _ (List.sorted_insertionSort _ _) s,
      ← insertionSort_append_singleton]
    congr 1
    rw [← hlen]
    simp

/-- **C4** `KthScore(new_score, scores, num_scores, k)` maintains a min-heap
of capacity `k` over the scores array: after `m` successive insertions of
scores `s_1 … s_m` (called with `num_scores = 0, 1, …, m-1`), its return
value is the `k`-th largest of `s_1 … s_m` when `m ≥ k`, and `-FLT_MAX`
(modelled `none`) when `m < k`. -/
theorem kthScore_kth_largest (k : ℕ) (hk : 0 < k) (ss : List A) :
    kthScoreReturn k ss = kthLargest ss k := by
  have hheap := kthScoreHeap_eq k hk ss
  have hsortlen : (List.insertionSort (· ≤ ·) ss).length = ss.length :=
    List.length_insertionSort _ _
  by_cases hm : ss.length < k
  · rw [kthScoreReturn, if_pos (by rw [hheap, List.length_drop]; omega)]
    rw [kthLargest]
    refine (List.getElem?_eq_none ?_).symm
    rw [List.length_reverse, hsortlen]
    omega
  · push_neg at hm
    rw [kthScoreReturn, if_neg (by rw [hheap, List.length_drop]; omega)]
    rw [hheap, List.head?_drop, kthLargest,
      List.getElem?_reverse (by rw [hsortlen]; omega)]
    congr 1
    rw [hsortlen]
    omega

/-- Witness for `kthScore_kth_largest`: with `k = 2` and the five scores
`[3, 1, 4, 1, 5]` the returned value is the second largest, `4`. -/
theorem kthScore_kth_largest_witness :
    0 < 2 ∧ kthScoreReturn 2 [3, 1, 4, 1, 5] = kthLargest [3, 1, 4, 1, 5] 2 ∧
      kthScoreReturn 2 [(3 : ℕ), 1, 4, 1, 5] = some 4 :=
  ⟨by decide, kthScore_kth_largest 2 (by decide) [3, 1, 4, 1, 5], by decide⟩

/-! ## `QueryProcessor::LoadIndexProperties` (query_processor.cc:2529-2544)

`collection_average_doc_len_` and `collection_total_num_docs_` are `uint32_t`
fields; `collection_total_document_lengths` is a `uint64_t` local.  Both meta
counters are unsigned, so the guards `<= 0` in the source hold exactly when
the stored counter is zero, and the division is integer division. -/

/-- The collection average document length computed by
`LoadIndexProperties` from the meta file counters
`total_document_lengths` and `total_num_docs`. -/
def loadCollectionAverageDocLen (totalDocumentLengths totalNumDocs : ℕ) : ℕ :=
  if totalNumDocs = 0 ∨ totalDocumentLengths = 0 then 1
  else totalDocumentLengths / totalNumDocs

/-- **C10 (counterexample)** With meta counters `total_document_lengths = 2`
and `total_num_docs = 5` (both positive, so neither guard fires), the
computed average document length is `0`, refuting the claim that it is
always a positive integer. -/
theorem loadCollectionAverageDocLen_zero :
    ¬ 0 < loadCollectionAverageDocLen 2 5 := by decide

/-- **C10 (amended)** `collection_average_doc_len_` is computed by integer
division of `total_document_lengths` by `total_num_docs` (the fractional
part is truncated), it is set to `1` whenever either (unsigned) meta counter
is zero, and it is a positive integer — keeping the BM25 doc-length
multiplier finite — whenever `total_num_docs ≤ total_document_lengths`;
with `0 < total_document_lengths < total_num_docs` it is `0`. -/
theorem loadCollectionAverageDocLen_spec (l n : ℕ) (h : n ≤ l) :
    0 < loadCollectionAverageDocLen l n ∧
      (0 < l → 0 < n → loadCollectionAverageDocLen l n = l / n) := by
  constructor
  · rw [loadCollectionAverageDocLen]
    by_cases hz : n = 0 ∨ l = 0
    · rw [if_pos hz]; omega
    · rw [if_neg hz]
      push_neg at hz
      exact Nat.div_pos h (by omega)
  · intro hl hn
    rw [loadCollectionAverageDocLen, if_neg (by omega)]

/-- Witness for `loadCollectionAverageDocLen_spec` at counters `(5, 2)`:
the average is the positive integer `2` (the exact quotient `2.5`
truncated). -/
theorem loadCollectionAverageDocLen_spec_witness :
    (0 < loadCollectionAverageDocLen 5 2 ∧
      (0 < 5 → 0 < 2 → loadCollectionAverageDocLen 5 2 = 5 / 2)) ∧
      loadCollectionAverageDocLen 5 2 = 2 :=
  ⟨loadCollectionAverageDocLen_spec 5 2 (by decide), by decide⟩

/-! ## `QueryProcessor::ExecuteQuery` dispatch (query_processor.cc:2363-2486)

After preprocessing, each (deduplicated) query term is looked up in the
lexicon; a `NULL` result means the term is absent.  The algorithm's
processing semantics decide whether a missing term empties the whole query
(AND) or is elided (OR). -/

/-- `QueryProcessor::QueryAlgorithm` (query_processor.h:62-83). -/
inductive QueryAlgorithm
  | kDefault
  | kDaatAnd
  | kDaatOr
  | kTaatOr
  | kDualLayeredOverlappingDaat
  | kDualLayeredOverlappingMergeDaat
  | kLayeredTaatOrEarlyTerminated
  | kWand
  | kDualLayeredWand
  | kMaxScore
  | kDualLayeredMaxScore
  | kDaatAndTopPositions
deriving DecidableEq

/-- The local `ProcessingSemantics` enum of `ExecuteQuery`. -/
inductive ProcessingSemantics
  | kAnd
  | kOr
  | kUndefined
deriving DecidableEq

/-- The `switch (query_algorithm_)` of `ExecuteQuery`
(query_processor.cc:2369-2386). -/
def processingSemantics : QueryAlgorithm → ProcessingSemantics
  | .kDaatAnd => .kAnd
  | .kDualLayeredOverlappingDaat => .kAnd
  | .kDualLayeredOverlappingMergeDaat => .kAnd
  | .kDaatOr => .kOr
  | .kLayeredTaatOrEarlyTerminated => .kOr
  | .kWand => .kOr
  | .kDualLayeredWand => .kOr
  | .kMaxScore => .kOr
  | .kDualLayeredMaxScore => .kOr
  | _ => .kUndefined

/-- The lookup-and-dispatch step of `ExecuteQuery`
(query_processor.cc:2395-2410, 2481-2486): `lookups` are the per-term
lexicon `GetEntry` results in query order (`none` = term absent);
`query_term_data` collects the found entries; for OR semantics
`num_query_terms` is lowered to the found count.  The result is `some`
of the term list handed to the evaluator, or `none` when the evaluator
is never run and the query returns zero results. -/
def executeQueryDispatch {T : Type} (alg : QueryAlgorithm)
    (lookups : List (Option T)) : Option (List T) :=
  let found := lookups.filterMap id
  let numQueryTerms :=
    if processingSemantics alg = .kOr then found.length else lookups.length
  if found.length = numQueryTerms then some found else none

lemma filterMap_id_length_lt {T : Type} (lookups : List (Option T))
    (h : none ∈ lookups) : (lookups.filterMap id).length < lookups.length := by
  induction lookups with
  | nil => simp at h
  | cons o os ih =>
    cases o with
    | none =>
      have : (os.filterMap id).length ≤ os.length := List.length_filterMap_le id os
      simp only [List.filterMap_cons, id, List.length_cons]
      omega
    | some x =>
      have hmem : none ∈ os := by simpa using h
      have := ih hmem
      simp only [List.filterMap_cons, id, List.length_cons]
      omega

/-- **C5** When a query term is absent from the lexicon: under AND-semantics
algorithms (`daat-and`, `layered-overlap`, `layered-overlap-merge`) the
entire query returns zero results and no evaluator runs; under OR-semantics
algorithms (`daat-or`, `layered-taat`, `wand`, `wand2`, `maxscore`,
`maxscore2`) the missing term is elided and the remaining terms are
processed normally. -/
theorem executeQuery_missing_term {T : Type} (lookups : List (Option T)) :
    (∀ alg, processingSemantics alg = .kAnd ↔
      (alg = .kDaatAnd ∨ alg = .kDualLayeredOverlappingDaat ∨
        alg = .kDualLayeredOverlappingMergeDaat)) ∧
    (∀ alg, processingSemantics alg = .kOr ↔
      (alg = .kDaatOr ∨ alg = .kLayeredTaatOrEarlyTerminated ∨
        alg = .kWand ∨ alg = .kDualLayeredWand ∨
        alg = .kMaxScore ∨ alg = .kDualLayeredMaxScore)) ∧
    (∀ alg, processingSemantics alg = .kAnd → none ∈ lookups →
      executeQueryDispatch alg lookups = none) ∧
    (∀ alg, processingSemantics alg = .kOr →
      executeQueryDispatch alg lookups = some (lookups.filterMap id)) := by
  refine ⟨?_, ?_, ?_, ?_⟩
  · intro alg; cases alg <;> simp [processingSemantics]
  · intro alg; cases alg <;> simp [processingSemantics]
  · intro alg hAnd hmem
    have hlt := filterMap_id_length_lt lookups hmem
    rw [executeQueryDispatch]
    have hne : processingSemantics alg ≠ .kOr := by rw [hAnd]; intro hcon; cases hcon
    simp only [if_neg hne]
    rw [if_neg (by omega)]
  · intro alg hOr
    simp [executeQueryDispatch, hOr]

/-- Witness for `executeQuery_missing_term`: with the second of two query
terms absent, `daat-and` runs no evaluator while `daat-or` elides the
missing term. -/
theorem executeQuery_missing_term_witness :
    executeQueryDispatch .kDaatAnd [some 7, none] = none ∧
      executeQueryDispatch .kDaatOr [some 7, none] = some [7] :=
  ⟨(executeQuery_missing_term [some 7, none]).2.2.1 .kDaatAnd rfl (by decide),
    (executeQuery_missing_term [some 7, none]).2.2.2 .kDaatOr rfl⟩

/-! ## `QueryProcessor::ExecuteQuery` preprocessing (query_processor.cc:2323-2358)

Before any lexicon access the query line is lower-cased character by
character, tokenized on whitespace, stop-word filtered, rejected if empty,
and then sorted and deduplicated (`sort` + `unique` + `erase`).  Characters
are modelled by their ASCII codes. -/

/-- ASCII model of `isupper` (default locale). -/
def isUpperCh (c : ℕ) : Bool := 65 ≤ c && c ≤ 90

/-- ASCII model of `tolower`, applied only to uppercase characters, as in
the source loop `if (isupper(query_line[i])) query_line[i] = tolower(...)`. -/
def toLowerCh (c : ℕ) : ℕ := if isUpperCh c then c + 32 else c

/-- The lower-casing loop over the query line (query_processor.cc:2325-2328). -/
def lowerLine (line : List ℕ) : List ℕ := line.map toLowerCh

/-- ASCII model of `isspace` (default locale), the delimiter set used by
`istringstream >>`. -/
def isSpaceCh (c : ℕ) : Bool := c == 32 || (9 ≤ c && c ≤ 13)

/-- Whitespace tokenization performed by `istringstream qss(query_line);
while (qss >> term)`.  `acc` holds the current in-progress word reversed. -/
def wordsAux : List ℕ → List ℕ → List (List ℕ)
  | [], acc => if acc.isEmpty then [] else [acc.reverse]
  | c :: cs, acc =>
    if isSpaceCh c then
      if acc.isEmpty then wordsAux cs [] else acc.reverse :: wordsAux cs []
    else wordsAux cs (c :: acc)

/-- The whitespace-separated words of a line. -/
def wordsOf (line : List ℕ) : List (List ℕ) := wordsAux line []

/-- Stop-word filtering (query_processor.cc:2339-2348): a term is kept iff
it is not in the stop list (with an empty stop list everything is kept,
which the filter also captures). -/
def filteredWords (stop : List (List ℕ)) (line : List ℕ) : List (List ℕ) :=
  (wordsOf (lowerLine line)).filter (fun w => ! stop.contains w)

/-- `sort(words.begin(), words.end()); words.erase(unique(...), ...)`
(query_processor.cc:2356-2358): sorting followed by removal of duplicate
values (on a sorted vector `std::unique` removes exactly the duplicated
values). -/
def sortDedup (ws : List (List ℕ)) : List (List ℕ) :=
  (ws.insertionSort (· ≤ ·)).dedup

/-- The full preprocessing of `ExecuteQuery` before any lexicon access:
`none` models the early `return` on an empty word list (no results, index
untouched); otherwise the deduplicated sorted term list that is looked up
in the lexicon. -/
def parseQueryLine (stop : List (List ℕ)) (line : List ℕ) :
    Option (List (List ℕ)) :=
  let ws := filteredWords stop line
  if ws.isEmpty then none else some (sortDedup ws)

lemma sortDedup_sorted (u : List (List ℕ)) :
    List.Sorted (· ≤ ·) (sortDedup u) :=
  List.Pairwise.sublist (List.dedup_sublist _) (List.sorted_insertionSort _ _)

lemma sortDedup_toFinset (u : List (List ℕ)) :
    (sortDedup u).toFinset = u.toFinset := by
  ext x
  simp only [List.mem_toFinset, sortDedup, List.mem_dedup]
  exact (List.perm_insertionSort (· ≤ ·) u).mem_iff

/-- Two word lists with the same underlying set have the same sorted
deduplicated form. -/
lemma sortDedup_eq_of_toFinset_eq (u v : List (List ℕ))
    (h : u.toFinset = v.toFinset) : sortDedup u = sortDedup v := by
  refine List.eq_of_perm_of_sorted ?_ (sortDedup_sorted u) (sortDedup_sorted v)
  refine List.perm_of_nodup_nodup_toFinset_eq (List.nodup_dedup _)
    (List.nodup_dedup _) ?_
  rw [sortDedup_toFinset, sortDedup_toFinset, h]

/-- **C9** For every query line, `ExecuteQuery` first converts the line to
lower case and removes duplicate terms (after stop-word filtering) before
any list is opened, so the term list handed to the lexicon (hence the
results of any query) is invariant under letter case and under repetition
of a query term; a line containing only stop words or whitespace returns
no results without touching the index. -/
theorem executeQuery_preprocessing (stop : List (List ℕ)) (l1 l2 l : List ℕ) :
    (lowerLine l1 = lowerLine l2 →
      parseQueryLine stop l1 = parseQueryLine stop l2) ∧
    ((filteredWords stop l1).toFinset = (filteredWords stop l2).toFinset →
      parseQueryLine stop l1 = parseQueryLine stop l2) ∧
    ((∀ w ∈ wordsOf (lowerLine l), stop.contains w) →
      parseQueryLine stop l = none) := by
  refine ⟨?_, ?_, ?_⟩
  · intro h
    unfold parseQueryLine filteredWords
    rw [h]
  · intro h
    unfold parseQueryLine
    by_cases h1 : (filteredWords stop l1).isEmpty
    · have h1' : filteredWords stop l1 = [] := by simpa using h1
      have h2' : filteredWords stop l2 = [] := by
        rw [h1'] at h
        exact (List.toFinset_eq_empty_iff _).mp (by simpa using h.symm)
      simp [h1', h2']
    · have h1' : filteredWords stop l1 ≠ [] := by simpa using h1
      have h2' : filteredWords stop l2 ≠ [] := by
        intro hcon
        rw [hcon] at h
        exact h1' ((List.toFinset_eq_empty_iff _).mp (by simpa using h))
      rw [if_neg (by simpa using h1'), if_neg (by simpa using h2'),
        sortDedup_eq_of_toFinset_eq _ _ h]
  · intro h
    have hnil : filteredWords stop l = [] := by
      rw [filteredWords, List.filter_eq_nil_iff]
      intro w hw
      simpa using h w hw
    unfold parseQueryLine
    simp [hnil]

/-- Witness for `executeQuery_preprocessing` at concrete ASCII inputs:
`"The"` versus `"tHE"` (case change), `"The  the"` versus `"the THE"`
(case change plus term repetition), and the whitespace-only line
`" \\t "`. -/
theorem executeQuery_preprocessing_witness :
    parseQueryLine [] [84, 104, 101] = parseQueryLine [] [116, 72, 69] ∧
    parseQueryLine [] [84, 104, 101, 32, 32, 116, 104, 101] =
      parseQueryLine [] [116, 104, 101, 32, 84, 72, 69] ∧
    parseQueryLine [] [32, 9, 32] = none :=
  ⟨(executeQuery_preprocessing [] [84, 104, 101] [116, 72, 69] []).1
      (by decide),
    (executeQuery_preprocessing [] [84, 104, 101, 32, 32, 116, 104, 101]
      [116, 104, 101, 32, 84, 72, 69] []).2.1 (by decide),
    (executeQuery_preprocessing [] [] [] [32, 9, 32]).2.2 (by decide)⟩

/-! ## `LayeredIndexGenerator::CreateLayeredIndex` (index_layerify.cc:136-337)

For one term, the list's postings are sorted by descending BM25 partial
score; `sc i` is the score of the posting at index `i` of that sorted
buffer.  The splitting loop walks layer indices `i = 0 … num_layers_-1`,
carrying `num_postings_left`; the candidate size chosen by the configured
`LayerSplitMode` strategy is abstracted as `split i left` (the claims hold
for every strategy).  The in-place docID re-sort before each dump
(index_layerify.cc:323) touches only indices below the next layer's start,
so later score reads (always at indices `≥` the next layer start) are
unaffected and `sc` can stay fixed. -/

/-- `kLayerMinSize = CHUNK_SIZE` (index_layerify.cc:140). -/
def kLayerMinSize : ℕ := 128

/-- The candidate layer size after clamping to the remaining postings
(index_layerify.cc:264) and enforcing the minimum layer size
(index_layerify.cc:267-271). -/
def layerProposedSize (split : ℕ → ℕ → ℕ) (i left : ℕ) : ℕ :=
  if min (split i left) left < kLayerMinSize ∧ kLayerMinSize ≤ left then
    kLayerMinSize
  else min (split i left) left

/-- The last layer absorbs all remaining postings
(index_layerify.cc:276-279). -/
def layerAfterAbsorb (numLayers i sz left2 : ℕ) : ℕ × ℕ :=
  if i = numLayers - 1 ∧ 0 < left2 then (sz + left2, 0) else (sz, left2)

/-- The boundary fix-up loop (index_layerify.cc:289-306): unless this is the
last layer or no postings remain, postings are absorbed into the current
layer while the score at the current layer start (`total - left - sz`) does
not strictly exceed the score at the next layer start (`total - left`). -/
def layerFixup (sc : ℕ → A) (total numLayers i : ℕ) : ℕ → ℕ → ℕ × ℕ
  | sz, 0 => (sz, 0)
  | sz, left + 1 =>
    if i = numLayers - 1 then (sz, left + 1)
    else if sc (total - (left + 1) - sz) ≤ sc (total - (left + 1)) then
      layerFixup sc total numLayers i (sz + 1) left
    else (sz, left + 1)

/-- One iteration of the layer splitting loop: the final
`(num_postings_curr_layer, num_postings_left)` pair for layer `i` when
`left` postings remain. -/
def layerStep (sc : ℕ → A) (split : ℕ → ℕ → ℕ)
    (total numLayers i left : ℕ) : ℕ × ℕ :=
  layerFixup sc total numLayers i
    (layerAfterAbsorb numLayers i (layerProposedSize split i left)
      (left - layerProposedSize split i left)).1
    (layerAfterAbsorb numLayers i (layerProposedSize split i left)
      (left - layerProposedSize split i left)).2

/-- The per-term splitting loop of `CreateLayeredIndex`
(index_layerify.cc:238-327), producing for each emitted layer its posting
count and its `score_threshold` — the score of the posting at the layer
start (index_layerify.cc:314-316).  `ll` counts the layers still available
including the current one, so the current layer index is
`i = numLayers - ll`. -/
def buildLayers (sc : ℕ → A) (split : ℕ → ℕ → ℕ) (total numLayers : ℕ) :
    ℕ → ℕ → List (ℕ × A)
  | 0, _ => []
  | ll + 1, left =>
    if left = 0 then []
    else
      ((layerStep sc split total numLayers (numLayers - (ll + 1)) left).1,
        sc (total -
          (layerStep sc split total numLayers (numLayers - (ll + 1)) left).2 -
          (layerStep sc split total numLayers (numLayers - (ll + 1)) left).1)) ::
        buildLayers sc split total numLayers ll
          (layerStep sc split total numLayers (numLayers - (ll + 1)) left).2

lemma layerProposedSize_le (split : ℕ → ℕ → ℕ) (i left : ℕ) :
    layerProposedSize split i left ≤ left := by
  rw [layerProposedSize]
  by_cases hc : min (split i left) left < kLayerMinSize ∧ kLayerMinSize ≤ left
  · rw [if_pos hc]; exact hc.2
  · rw [if_neg hc]; omega

lemma layerAfterAbsorb_sum (numLayers i sz left2 : ℕ) :
    (layerAfterAbsorb numLayers i sz left2).1 +
      (layerAfterAbsorb numLayers i sz left2).2 = sz + left2 := by
  rw [layerAfterAbsorb]
  by_cases hc : i = numLayers - 1 ∧ 0 < left2
  · rw [if_pos hc]
    simp
  · rw [if_neg hc]

lemma layerAfterAbsorb_last (numLayers i sz left2 : ℕ)
    (h : i = numLayers - 1) : (layerAfterAbsorb numLayers i sz left2).2 = 0 := by
  rw [layerAfterAbsorb]
  by_cases hc : 0 < left2
  · rw [if_pos ⟨h, hc⟩]
  · rw [if_neg (fun hcon => absurd hcon.2 hc)]
    omega

lemma layerFixup_sum (sc : ℕ → A) (total numLayers i : ℕ) :
    ∀ left sz, (layerFixup sc total numLayers i sz left).1 +
      (layerFixup sc total numLayers i sz left).2 = sz + left := by
  intro left
  induction left with
  | zero => intro sz; simp [layerFixup]
  | succ left ih =>
    intro sz
    rw [layerFixup]
    by_cases h1 : i = numLayers - 1
    · rw [if_pos h1]
    · rw [if_neg h1]
      by_cases h2 : sc (total - (left + 1) - sz) ≤ sc (total - (left + 1))
      · rw [if_pos h2, ih (sz + 1)]
        omega
      · rw [if_neg h2]

lemma layerFixup_exit (sc : ℕ → A) (total numLayers i : ℕ) :
    ∀ left sz,
      (layerFixup sc total numLayers i sz left).2 ≠ 0 →
      i ≠ numLayers - 1 →
      sc (total - (layerFixup sc total numLayers i sz left).2) <
        sc (total - (layerFixup sc total numLayers i sz left).2 -
          (layerFixup sc total numLayers i sz left).1) := by
  intro left
  induction left with
  | zero => intro sz h _; simp [layerFixup] at h
  | succ left ih =>
    intro sz hne hlast
    rw [layerFixup] at hne ⊢
    rw [if_neg hlast] at hne ⊢
    by_cases h2 : sc (total - (left + 1) - sz) ≤ sc (total - (left + 1))
    · rw [if_pos h2] at hne ⊢
      exact ih (sz + 1) hne hlast
    · rw [if_neg h2] at hne ⊢
      exact lt_of_not_ge h2

lemma layerFixup_left_zero (sc : ℕ → A) (total numLayers i sz : ℕ) :
    layerFixup sc total numLayers i sz 0 = (sz, 0) := by
  simp [layerFixup]

lemma layerStep_sum (sc : ℕ → A) (split : ℕ → ℕ → ℕ)
    (total numLayers i left : ℕ) :
    (layerStep sc split total numLayers i left).1 +
      (layerStep sc split total numLayers i left).2 = left := by
  rw [layerStep, layerFixup_sum, layerAfterAbsorb_sum]
  have := layerProposedSize_le split i left
  omega

lemma layerStep_last (sc : ℕ → A) (split : ℕ → ℕ → ℕ)
    (total numLayers i left : ℕ) (h : i = numLayers - 1) :
    (layerStep sc split total numLayers i left).2 = 0 := by
  rw [layerStep]
  have habs := layerAfterAbsorb_last numLayers i
    (layerProposedSize split i left) (left - layerProposedSize split i left) h
  rw [habs, layerFixup_left_zero]

lemma layerStep_exit (sc : ℕ → A) (split : ℕ → ℕ → ℕ)
    (total numLayers i left : ℕ)
    (h2 : (layerStep sc split total numLayers i left).2 ≠ 0)
    (hlast : i ≠ numLayers - 1) :
    sc (total - (layerStep sc split total numLayers i left).2) <
      sc (total - (layerStep sc split total numLayers i left).2 -
        (layerStep sc split total numLayers i left).1) := by
  rw [layerStep] at h2 ⊢
  exact layerFixup_exit sc total numLayers i _ _ h2 hlast

/-- Unfolding of `buildLayers` on a non-empty remainder: the emitted
threshold is the score at the current layer start `total - left`. -/
lemma buildLayers_cons (sc : ℕ → A) (split : ℕ → ℕ → ℕ)
    (total numLayers ll left : ℕ) (hl : left ≠ 0) :
    buildLayers sc split total numLayers (ll + 1) left =
      ((layerStep sc split total numLayers (numLayers - (ll + 1)) left).1,
        sc (total - left)) ::
        buildLayers sc split total numLayers ll
          (layerStep sc split total numLayers (numLayers - (ll + 1)) left).2 := by
  rw [buildLayers, if_neg hl]
  have hsum := layerStep_sum sc split total numLayers (numLayers - (ll + 1)) left
  have harith : total -
      (layerStep sc split total numLayers (numLayers - (ll + 1)) left).2 -
      (layerStep sc split total numLayers (numLayers - (ll + 1)) left).1 =
      total - left := by omega
  rw [harith]

/-- The posting counts of a term's emitted layers always add up to the
number of postings handed in: the last layer absorbs everything left. -/
lemma buildLayers_sizes_sum (sc : ℕ → A) (split : ℕ → ℕ → ℕ)
    (total numLayers : ℕ) :
    ∀ ll left, 1 ≤ ll →
      ((buildLayers sc split total numLayers ll left).map Prod.fst).sum =
        left := by
  intro ll
  induction ll with
  | zero => intro left h; omega
  | succ ll ih =>
    intro left _
    by_cases hz : left = 0
    · subst hz
      simp [buildLayers]
    · rw [buildLayers_cons sc split total numLayers ll left hz]
      simp only [List.map_cons, List.sum_cons]
      have hsum := layerStep_sum sc split total numLayers
        (numLayers - (ll + 1)) left
      cases ll with
      | zero =>
        have hzero := layerStep_last sc split total numLayers
          (numLayers - (0 + 1)) left rfl
        rw [hzero]
        rw [show buildLayers sc split total numLayers 0 0 = [] from rfl]
        simp only [List.map_nil, List.sum_nil, Nat.add_zero]
        omega
      | succ ll' =>
        rw [ih _ (by omega)]
        exact hsum

/-- The first emitted threshold is the score at `total - left`. -/
lemma buildLayers_head_threshold (sc : ℕ → A) (split : ℕ → ℕ → ℕ)
    (total numLayers ll left : ℕ) (hl : left ≠ 0) (hll : ll ≠ 0) :
    ((buildLayers sc split total numLayers ll left).map Prod.snd).head? =
      some (sc (total - left)) := by
  cases ll with
  | zero => omega
  | succ ll =>
    rw [buildLayers_cons sc split total numLayers ll left hl]
    rfl

/-- **C6** For every term written by
`LayeredIndexGenerator::CreateLayeredIndex`, the emitted per-layer score
thresholds are strictly decreasing in layer index (layer 0 has the highest
`score_threshold`): whenever the boundary posting of the next layer scores
no less than the current layer's boundary posting, the equal-scoring
postings are migrated up into the current layer before the layer is dumped,
so each successive layer's threshold is strictly below the previous one.
This holds for every splitting strategy `split` and every score assignment,
with any number of layers. -/
theorem createLayeredIndex_thresholds_strict_decreasing (sc : ℕ → A)
    (split : ℕ → ℕ → ℕ) (total numLayers : ℕ) :
    List.Chain' (fun x y => y < x)
      ((buildLayers sc split total numLayers numLayers total).map
        Prod.snd) := by
  suffices h : ∀ ll left,
      List.Chain' (fun x y => y < x)
        ((buildLayers sc split total numLayers ll left).map Prod.snd) from
    h numLayers total
  intro ll
  induction ll with
  | zero => intro left; simp [buildLayers]
  | succ ll ih =>
    intro left
    by_cases hz : left = 0
    · subst hz; simp [buildLayers]
    · rw [buildLayers_cons sc split total numLayers ll left hz]
      simp only [List.map_cons]
      rw [List.chain'_cons']
      refine ⟨?_, ih _⟩
      intro y hy
      set left4 := (layerStep sc split total numLayers
        (numLayers - (ll + 1)) left).2 with hleft4
      have hl4 : left4 ≠ 0 := by
        intro hcon
        rw [hcon] at hy
        cases ll with
        | zero => simp [buildLayers] at hy
        | succ ll' => simp [buildLayers] at hy
      have hll0 : ll ≠ 0 := by
        intro hcon
        subst hcon
        exact hl4 (layerStep_last sc split total numLayers
          (numLayers - (0 + 1)) left rfl)
      have hhead := buildLayers_head_threshold sc split total numLayers
        ll left4 hl4 hll0
      rw [hhead] at hy
      have hyeq : y = sc (total - left4) := by simpa using hy.symm
      have hlast : numLayers - (ll + 1) ≠ numLayers - 1 := by
        intro hcon
        exact hl4 (layerStep_last sc split total numLayers
          (numLayers - (ll + 1)) left hcon)
      have hexit := layerStep_exit sc split total numLayers
        (numLayers - (ll + 1)) left hl4 hlast
      have hsum := layerStep_sum sc split total numLayers
        (numLayers - (ll + 1)) left
      rw [hyeq]
      have harith : total - left4 -
          (layerStep sc split total numLayers (numLayers - (ll + 1)) left).1 =
          total - left := by omega
      rw [← harith]
      exact hexit

/-- A concrete evaluation of the layer splitting: on a strictly descending
score assignment with 5 postings and 3 layers of one posting each, the
emitted thresholds are `10 > 9 > 8`. -/
theorem createLayeredIndex_thresholds_example :
    ((buildLayers (fun i => (10 - i : ℤ)) (fun _ _ => 1) 5 3 3 5).map
      Prod.snd) = [10, 9, 8] := by decide

/-! ## `LayeredIndexGenerator::WriteMetaFile` (index_layerify.cc:66-126, 401-445) -/

/-- The meta counters the generator copies from the input index's meta file
at construction (index_layerify.cc:107-114). -/
structure IndexMetaNums where
  totalNumDocs : ℕ
  totalDocumentLengths : ℕ
  firstDocId : ℕ
  lastDocId : ℕ
  indexPostingCount : ℕ
deriving DecidableEq

/-- Sum of the dump lengths when every dump covers the postings from index
`0` up to the end of the current layer (`layer_start = 0`, the overlapping
case, index_layerify.cc:315): each emitted layer of size `s` after an
already-covered prefix `acc` dumps `acc + s` postings. -/
def overlappingDumpTotal : ℕ → List ℕ → ℕ
  | _, [] => 0
  | acc, s :: rest => (acc + s) + overlappingDumpTotal (acc + s) rest

/-- The number of postings the `IndexBuilder` receives for one term: for
non-overlapping layers each dump holds exactly the layer's postings
(`layer_start = curr_layer_start`); for overlapping layers each dump also
repeats all earlier postings. -/
def termDumpedPostings (overlapping : Bool) (sc : ℕ → A)
    (split : ℕ → ℕ → ℕ) (numLayers total : ℕ) : ℕ :=
  if overlapping then
    overlappingDumpTotal 0
      ((buildLayers sc split total numLayers numLayers total).map Prod.fst)
  else
    ((buildLayers sc split total numLayers numLayers total).map Prod.fst).sum

/-- `index_builder_->posting_count()` over all terms; a term is given by its
score-descending score assignment and its posting count. -/
def builderPostingCount (overlapping : Bool) (terms : List ((ℕ → A) × ℕ))
    (split : ℕ → ℕ → ℕ) (numLayers : ℕ) : ℕ :=
  (terms.map (fun t =>
    termDumpedPostings overlapping t.1 split numLayers t.2)).sum

/-- `LayeredIndexGenerator::WriteMetaFile` (index_layerify.cc:401-445):
`total_document_lengths`, `total_num_docs`, `first_doc_id` and
`last_doc_id` are written from the values copied from the input meta file;
`index_posting_count` is written from the builder's own count. -/
def writeMetaFile (input : IndexMetaNums) (overlapping : Bool)
    (terms : List ((ℕ → A) × ℕ)) (split : ℕ → ℕ → ℕ)
    (numLayers : ℕ) : IndexMetaNums :=
  { totalNumDocs := input.totalNumDocs
    totalDocumentLengths := input.totalDocumentLengths
    firstDocId := input.firstDocId
    lastDocId := input.lastDocId
    indexPostingCount := builderPostingCount overlapping terms split numLayers }

/-- **C7** `LayeredIndexGenerator` writes an output meta file whose
`total_num_docs`, `total_document_lengths`, `first_doc_id` and
`last_doc_id` equal the corresponding input meta values, and, when the
layers are non-overlapping, whose `index_posting_count` equals the input
index's `index_posting_count` (assuming the input meta counter is
consistent with the index, i.e. equals the total number of postings). -/
theorem writeMetaFile_round_trip (input : IndexMetaNums) (overlapping : Bool)
    (terms : List ((ℕ → A) × ℕ)) (split : ℕ → ℕ → ℕ) (numLayers : ℕ)
    (hN : 1 ≤ numLayers)
    (hcount : input.indexPostingCount = (terms.map Prod.snd).sum) :
    (writeMetaFile input overlapping terms split numLayers).totalNumDocs =
        input.totalNumDocs ∧
    (writeMetaFile input overlapping terms split
        numLayers).totalDocumentLengths = input.totalDocumentLengths ∧
    (writeMetaFile input overlapping terms split numLayers).firstDocId =
        input.firstDocId ∧
    (writeMetaFile input overlapping terms split numLayers).lastDocId =
        input.lastDocId ∧
    (overlapping = false →
      (writeMetaFile input overlapping terms split
        numLayers).indexPostingCount = input.indexPostingCount) := by
  refine ⟨rfl, rfl, rfl, rfl, ?_⟩
  intro hov
  subst hov
  show builderPostingCount false terms split numLayers =
    input.indexPostingCount
  rw [builderPostingCount, hcount]
  congr 1
  refine List.map_congr_left ?_
  intro t _
  rw [termDumpedPostings, if_neg (by simp)]
  exact buildLayers_sizes_sum t.1 split t.2 numLayers numLayers t.2 hN

/-- Witness for `writeMetaFile_round_trip`: one term with 5 postings split
into 2 non-overlapping layers; every copied counter survives and the
posting count round-trips. -/
theorem writeMetaFile_round_trip_witness :
    ((writeMetaFile ⟨2, 5, 1, 2, 5⟩ false [(fun i => (10 - i : ℤ), 5)]
        (fun _ _ => 1) 2).totalNumDocs = (2 : ℕ) ∧
      (writeMetaFile ⟨2, 5, 1, 2, 5⟩ false [(fun i => (10 - i : ℤ), 5)]
        (fun _ _ => 1) 2).totalDocumentLengths = (5 : ℕ) ∧
      (writeMetaFile ⟨2, 5, 1, 2, 5⟩ false [(fun i => (10 - i : ℤ), 5)]
        (fun _ _ => 1) 2).firstDocId = (1 : ℕ) ∧
      (writeMetaFile ⟨2, 5, 1, 2, 5⟩ false [(fun i => (10 - i : ℤ), 5)]
        (fun _ _ => 1) 2).lastDocId = (2 : ℕ) ∧
      (false = false →
        (writeMetaFile ⟨2, 5, 1, 2, 5⟩ false [(fun i => (10 - i : ℤ), 5)]
          (fun _ _ => 1) 2).indexPostingCount = (5 : ℕ))) :=
  writeMetaFile_round_trip ⟨2, 5, 1, 2, 5⟩ false
    [(fun i => (10 - i : ℤ), 5)] (fun _ _ => 1) 2 (by decide) (by decide)

/-! ## Query evaluators (query_processor.cc)

The evaluators are modelled over an arbitrary linearly ordered field of
scores, standing for the C++ `float`s with exact arithmetic.  NextGEQ-driven
traversal of a sorted on-disk list layer is modelled statelessly (the least
posting `≥` target), which by the cursor contract above coincides with the
stateful cursor on the monotone target sequences these loops issue.  The
C++ `Result` min-heap (`push_heap`/`pop_heap` with `ResultCompare`, which
compares scores only) is modelled by its content kept ascending by score,
head = heap top. -/

variable {F : Type} [LinearOrderedField F]

/-- A list layer as the evaluator sees it: the `(docID, freq)` postings in
strictly ascending docID order, plus `ListData::num_docs_complete_list_`
(index_reader.h:421-423), the length of the term's complete list. -/
structure ListLayer where
  postings : List (ℕ × ℕ)
  numDocsCompleteList : ℕ
deriving DecidableEq

/-- The docIDs of a layer. -/
def layerDocIds (L : ListLayer) : List ℕ := L.postings.map Prod.fst

/-- `GetFreq` for a docID present in the layer (0 as a don't-care default
for absent docIDs, which the evaluators never query). -/
def layerFreq (L : ListLayer) (d : ℕ) : ℕ := (L.postings.lookup d).getD 0

/-- BM25 parameter `kBm25K1 = 2.0` (query_processor.cc:2041). -/
def kBm25K1 : F := 2

/-- BM25 parameter `kBm25B = 0.75` (query_processor.cc:2042). -/
def kBm25B : F := 3 / 4

/-- The per-posting BM25 factor multiplying the IDF:
`(f_d_t * kBm25NumeratorMul) / (f_d_t + kBm25DenominatorAdd +
kBm25DenominatorDocLenMul * doc_len)` (query_processor.cc:2044-2047,
2111). -/
def bm25Partial (avgdl dl f : F) : F :=
  (f * (kBm25K1 + 1)) /
    (f + kBm25K1 * (1 - kBm25B) + kBm25K1 * kBm25B / avgdl * dl)

/-- The partial score a list contributes for docID `d`:
`idf_t[i] * bm25Partial`, with the IDF computed from
`num_docs_complete_list` (query_processor.cc:2058-2064).  `idfOf n` stands
for the evaluator's IDF for a term whose complete list holds `n` docs (the
source computes `log10(1 + (N - n + 0.5) / (n + 0.5))` in floats). -/
def layerScore (idfOf : ℕ → F) (avgdl : F) (dl : ℕ → F)
    (L : ListLayer) (d : ℕ) : F :=
  idfOf L.numDocsCompleteList * bm25Partial avgdl (dl d) (layerFreq L d)

/-- The full score of docID `d`: the `bm25_sum` over the query's lists
(query_processor.cc:2106-2122). -/
def listsScore (idfOf : ℕ → F) (avgdl : F) (dl : ℕ → F)
    (lists : List ListLayer) (d : ℕ) : F :=
  (lists.map (fun L => layerScore idfOf avgdl dl L d)).sum

/-- Stateless `NextGEQ` on a sorted docID list: the first posting `≥ t`
(`none` = the `u32::MAX` sentinel). -/
def listNextGEQ (docs : List ℕ) (t : ℕ) : Option ℕ :=
  docs.find? (fun d => t ≤ d)

/-- The inner for-loop of `IntersectLists`
(`for (; (i < num_lists) && ((d = NextGEQ(lists[i], did)) == did); ++i)`,
query_processor.cc:2096-2098): `some did` when every remaining list is
positioned on `did`; `some d` with `d > did` at the first mismatch;
`none` when some list is exhausted. -/
def probeLists (others : List (List ℕ)) (did : ℕ) : Option ℕ :=
  match others with
  | [] => some did
  | l :: ls =>
    match listNextGEQ l did with
    | none => none
    | some d => if d = did then probeLists ls did else some d

/-- The outer `while (did < u32::MAX)` loop of `IntersectLists`
(query_processor.cc:2070-2181), driven by the first (shortest) list, with
`did` advanced to a mismatching docID, or past a scored docID: the
ascending stream of docIDs found in every list. -/
def intersectLoop (others : List (List ℕ)) : List ℕ → ℕ → List ℕ
  | [], _ => []
  | d :: ds, did =>
    if d < did then intersectLoop others ds did
    else
      match probeLists others d with
      | none => []
      | some dj =>
        if dj = d then d :: intersectLoop others ds (d + 1)
        else intersectLoop others ds dj

/-- One `push_heap`/`pop_heap` round of the top-k `Result` min-heap,
generic in the heap element type with `key` the compared score
(query_processor.cc:2159-2176): insert when fewer than `k` results are
held, else replace the minimum only when strictly exceeded. -/
def heapStep {B : Type} (key : B → F) (k : ℕ) (heap : List B) (e : B) :
    List B :=
  if heap.length < k then
    List.orderedInsert (fun a b => key a ≤ key b) e heap
  else
    match heap with
    | [] => []
    | m :: rest =>
      if key m < key e then
        List.orderedInsert (fun a b => key a ≤ key b) e rest
      else m :: rest

/-- Folding a stream of docIDs with their scores into the top-k heap. -/
def topkFoldHeap (k : ℕ) (score : ℕ → F) (ds : List ℕ) : List (F × ℕ) :=
  ds.foldl (fun h d => heapStep Prod.fst k h (score d, d)) []

/-- `IntersectLists(lists, num_lists, results, num_results)`
(query_processor.cc:2027-2187): the top-k heap filled along the AND
traversal, returned sorted by descending score (the final
`sort(results, …, ResultCompare())`).  The `ListCompare` pre-sort of the
callers orders lists by length for traversal speed and does not change the
intersection or the scores, and is omitted. -/
def intersectLists (k : ℕ) (idfOf : ℕ → F) (avgdl : F) (dl : ℕ → F)
    (lists : List ListLayer) : List (F × ℕ) :=
  match lists.map layerDocIds with
  | [] => []
  | l0 :: others =>
    (topkFoldHeap k (listsScore idfOf avgdl dl lists)
      (intersectLoop others l0 0)).reverse

/-- The ascending union of the docID streams, as traversed by the
`kScoreCompleteDoc` DAAT-OR loop of `MergeLists`
(query_processor.cc:1270-1320), which repeatedly scores the smallest
current docID across all cursors and advances every cursor holding it. -/
def unionDocIds (lists : List (List ℕ)) : List ℕ :=
  ((lists.foldr (· ++ ·) []).insertionSort (· ≤ ·)).dedup

/-- The OR-mode score of a docID: the lists positioned on `d` contribute
their partial score (query_processor.cc:1284-1304). -/
def orDocScore (idfOf : ℕ → F) (avgdl : F) (dl : ℕ → F)
    (lists : List ListLayer) (d : ℕ) : F :=
  (lists.map (fun L =>
    if d ∈ layerDocIds L then layerScore idfOf avgdl dl L d else 0)).sum

/-- `MergeLists(lists, num_lists, results, num_results)` — standard DAAT-OR
(query_processor.cc:1191-1403, `kScoreCompleteDoc = true`): every docID in
the union is fully scored once, in ascending docID order, into the top-k
heap; the results are returned sorted by descending score. -/
def mergeListsOr (k : ℕ) (idfOf : ℕ → F) (avgdl : F) (dl : ℕ → F)
    (lists : List ListLayer) : List (F × ℕ) :=
  (topkFoldHeap k (orDocScore idfOf avgdl dl lists)
    (unionDocIds (lists.map layerDocIds))).reverse

/-- One query term of a dual-layered overlapping index: the short top layer
(layer 0), the last layer (layer 1, holding the complete list), and the
lexicon's `layer_score_threshold(num_layers() - 1)` used by the early
termination test (query_processor.cc:1065). -/
structure DualLayerTerm (F : Type) where
  layer0 : ListLayer
  layer1 : ListLayer
  lastThreshold : F

/-- The per-term intersections of `ProcessLayeredQuery`
(query_processor.cc:977-1011): for each term, its first layer intersected
with the second layers of all other terms.  `before` accumulates the
already-processed terms. -/
def perTermLists (before : List (DualLayerTerm F)) :
    List (DualLayerTerm F) → List (List ListLayer)
  | [] => []
  | t :: after =>
    (t.layer0 :: (before.reverse.map (·.layer1) ++ after.map (·.layer1))) ::
      perTermLists (before ++ [t]) after

/-- `(Result, (i, j))` ordering of the merge heap
(query_processor.cc:1016-1047): lexicographic on `(score, docID)`, ties
broken towards the later intersection.  `bestFront` returns the index and
head entry the max-heap pops next. -/
def bestFront (fronts : List (List (F × ℕ))) : Option (ℕ × (F × ℕ)) :=
  (fronts.enum.filterMap (fun p =>
    match p.2 with
    | [] => none
    | e :: _ => some (p.1, e))).foldl
    (fun best c =>
      match best with
      | none => some c
      | some b =>
        if b.2.1 < c.2.1 ∨ (b.2.1 = c.2.1 ∧ b.2.2 ≤ c.2.2) then some c
        else some b)
    none

/-- The pop sequence of the merge heap: repeatedly pop the maximal head
among the per-intersection result lists. -/
def mergeRound : ℕ → List (List (F × ℕ)) → List (F × ℕ)
  | 0, _ => []
  | fuel + 1, fronts =>
    match bestFront fronts with
    | none => []
    | some (i, e) => e :: mergeRound fuel (fronts.modify List.tail i)

/-- The duplicate-docID filter of the merge loop
(query_processor.cc:1034-1039): an entry is dropped when its docID equals
the docID of the previously kept result. -/
def dedupByPrev (prev : ℕ) : List (F × ℕ) → List (F × ℕ)
  | [] => []
  | e :: rest =>
    if e.2 = prev then dedupByPrev prev rest else e :: dedupByPrev e.2 rest

/-- The merged results of the per-term intersections: the pop sequence,
with adjacent duplicate docIDs removed, cut to `k` results. -/
def mergedTopK (k : ℕ) (ints : List (List (F × ℕ))) : List (F × ℕ) :=
  (match mergeRound ((ints.map List.length).sum) ints with
    | [] => []
    | e :: rest => e :: dedupByPrev e.2 rest).take k

/-- `ProcessLayeredQuery` (query_processor.cc:933-1139) for a query whose
terms all have two layers (`single_layer_list_idx == -1`), per-term branch
(`kDualLayeredOverlappingDaat`): run the per-term intersections, merge, and
if `k` results were produced whose `k`-th score strictly exceeds the sum of
the terms' last-layer score thresholds, the result is final
(early termination, second component `true`); otherwise the query is rerun
as a standard intersection of the reset last layers. -/
def processLayeredQuery (k : ℕ) (idfOf : ℕ → F) (avgdl : F) (dl : ℕ → F)
    (terms : List (DualLayerTerm F)) : List (F × ℕ) × Bool :=
  let ints := (perTermLists [] terms).map (intersectLists k idfOf avgdl dl)
  let merged := mergedTopK k ints
  let thresholdSum := (terms.map (·.lastThreshold)).sum
  match merged[k - 1]? with
  | some r =>
    if thresholdSum < r.1 then (merged, true)
    else (intersectLists k idfOf avgdl dl (terms.map (·.layer1)), false)
  | none => (intersectLists k idfOf avgdl dl (terms.map (·.layer1)), false)

lemma heapStep_cons {B : Type} (key : B → F) (k : ℕ) (m : B) (rest : List B)
    (e : B) :
    heapStep key k (m :: rest) e =
      if (m :: rest).length < k then
        List.orderedInsert (fun a b => key a ≤ key b) e (m :: rest)
      else if key m < key e then
        List.orderedInsert (fun a b => key a ≤ key b) e rest
      else m :: rest := by
  by_cases h : (m :: rest).length < k <;> simp [heapStep, h]

lemma heapStep_of_lt {B : Type} (key : B → F) (k : ℕ) (heap : List B)
    (e : B) (h : heap.length < k) :
    heapStep key k heap e =
      List.orderedInsert (fun a b => key a ≤ key b) e heap := by
  cases heap with
  | nil =>
    simp [heapStep, h]
    omega
  | cons m rest => rw [heapStep_cons, if_pos h]

/-- The IDF the evaluators compute for a collection of `N` documents, as a
function of `num_docs_complete_list`:
`log10(1 + (collection_total_num_docs_ - num_docs_t + 0.5) /
(num_docs_t + 0.5))` (query_processor.cc:2062-2063), in exact real
arithmetic. -/
noncomputable def realIdf (N : ℕ) : ℕ → ℝ :=
  fun n => Real.logb 10 (1 + ((N : ℝ) - (n : ℝ) + 1 / 2) / ((n : ℝ) + 1 / 2))

lemma listLayer_map_ext (u v : List ListLayer)
    (h1 : u.map ListLayer.postings = v.map ListLayer.postings)
    (h2 : u.map ListLayer.numDocsCompleteList =
      v.map ListLayer.numDocsCompleteList) : u = v := by
  induction u generalizing v with
  | nil => cases v with
    | nil => rfl
    | cons b bs => simp at h1
  | cons a as ih =>
    cases v with
    | nil => simp at h1
    | cons b bs =>
      simp only [List.map_cons, List.cons.injEq] at h1 h2
      have hab : a = b := by
        cases a; cases b
        simp_all
      rw [hab, ih bs h1.2 h2.2]

/-- **C3** Every evaluator computes the per-term IDF as
`log10(1 + (N - n_t + 0.5) / (n_t + 0.5))` with `n_t` taken from
`num_docs_complete_list` (the length of the full list, not the opened
layer), so that for any query and any `k`, DAAT-AND on a non-layered index
and DAAT-AND on the last layers of the layered version of the same index —
which carry the same postings and the same `num_docs_complete_list` —
produce the same top-k docID set and the same scores (exactly, in the
real-arithmetic model; hence up to f32 rounding in floats). -/
theorem intersectLists_layered_nonlayered_agree (k N : ℕ) (avgdl : ℝ)
    (dl : ℕ → ℝ) (layered plain : List ListLayer)
    (h1 : layered.map ListLayer.postings = plain.map ListLayer.postings)
    (h2 : layered.map ListLayer.numDocsCompleteList =
      plain.map ListLayer.numDocsCompleteList) :
    (∀ (L : ListLayer) (d : ℕ),
      layerScore (realIdf N) avgdl dl L d =
        Real.logb 10 (1 + ((N : ℝ) - (L.numDocsCompleteList : ℝ) + 1 / 2) /
          ((L.numDocsCompleteList : ℝ) + 1 / 2)) *
          bm25Partial avgdl (dl d) (layerFreq L d)) ∧
    intersectLists k (realIdf N) avgdl dl layered =
      intersectLists k (realIdf N) avgdl dl plain := by
  refine ⟨fun L d => rfl, ?_⟩
  rw [listLayer_map_ext layered plain h1 h2]

/-- Witness for `intersectLists_layered_nonlayered_agree`: a last layer
carrying the complete two-posting list of the non-layered index. -/
theorem intersectLists_layered_nonlayered_agree_witness :
    (∀ (L : ListLayer) (d : ℕ),
      layerScore (realIdf 2) (2 : ℝ) (fun _ => 2) L d =
        Real.logb 10 (1 + ((2 : ℝ) - (L.numDocsCompleteList : ℝ) + 1 / 2) /
          ((L.numDocsCompleteList : ℝ) + 1 / 2)) *
          bm25Partial (2 : ℝ) 2 (layerFreq L d)) ∧
    intersectLists 10 (realIdf 2) (2 : ℝ) (fun _ => 2)
        [ListLayer.mk [(1, 1), (2, 1)] 2] =
      intersectLists 10 (realIdf 2) (2 : ℝ) (fun _ => 2)
        [ListLayer.mk [(1, 1), (2, 1)] 2] :=
  intersectLists_layered_nonlayered_agree 10 2 (2 : ℝ) (fun _ => 2)
    [ListLayer.mk [(1, 1), (2, 1)] 2] [ListLayer.mk [(1, 1), (2, 1)] 2]
    (by decide) (by decide)

/-! ## The S1 toy scenario (spec §8)

Two documents: doc 1 = "alpha beta beta" (length 3), doc 2 = "alpha gamma"
(length 2); `total_num_docs = 2`, `total_document_lengths = 5`, so
`LoadIndexProperties` computes `collection_average_doc_len_ = 5 / 2 = 2`
(integer division).  The list for `alpha` is `[(1,1), (2,1)]` with
`num_docs_complete_list = 2`. -/

/-- Document lengths of the toy collection. -/
def toyDl : ℕ → ℝ := fun d => if d = 1 then 3 else 2

/-- The `alpha` posting list of the toy collection. -/
def toyAlpha : ListLayer := ⟨[(1, 1), (2, 1)], 2⟩

lemma toy_idf_pos : 0 < realIdf 2 2 := by
  rw [realIdf]
  refine Real.logb_pos (by norm_num) ?_
  norm_num

lemma toy_bm25_doc1 : bm25Partial (2 : ℝ) 3 1 = 4 / 5 := by
  rw [bm25Partial, kBm25K1, kBm25B]
  norm_num

lemma toy_bm25_doc2 : bm25Partial (2 : ℝ) 2 1 = 1 := by
  rw [bm25Partial, kBm25K1, kBm25B]
  norm_num

lemma toy_score_doc1 :
    orDocScore (realIdf 2) 2 toyDl [toyAlpha] 1 = realIdf 2 2 * (4 / 5) := by
  rw [orDocScore]
  have hmem : (1 : ℕ) ∈ layerDocIds toyAlpha := by decide
  have hf : layerFreq toyAlpha 1 = 1 := by decide
  simp only [List.map_cons, List.map_nil, List.sum_cons, List.sum_nil,
    if_pos hmem, add_zero]
  rw [layerScore, hf]
  have hdl : toyDl 1 = 3 := by rw [toyDl]; norm_num
  rw [hdl]
  norm_num [toy_bm25_doc1, toyAlpha]

lemma toy_score_doc2 :
    orDocScore (realIdf 2) 2 toyDl [toyAlpha] 2 = realIdf 2 2 := by
  rw [orDocScore]
  have hmem : (2 : ℕ) ∈ layerDocIds toyAlpha := by decide
  have hf : layerFreq toyAlpha 2 = 1 := by decide
  simp only [List.map_cons, List.map_nil, List.sum_cons, List.sum_nil,
    if_pos hmem, add_zero]
  rw [layerScore, hf]
  have hdl : toyDl 2 = 2 := by rw [toyDl]; norm_num
  rw [hdl]
  norm_num [toy_bm25_doc2, toyAlpha]

lemma toy_score_lt :
    orDocScore (realIdf 2) 2 toyDl [toyAlpha] 1 <
      orDocScore (realIdf 2) 2 toyDl [toyAlpha] 2 := by
  rw [toy_score_doc1, toy_score_doc2]
  nlinarith [toy_idf_pos]

lemma toy_merge_eval :
    mergeListsOr 10 (realIdf 2) 2 toyDl [toyAlpha] =
      [(orDocScore (realIdf 2) 2 toyDl [toyAlpha] 2, 2),
        (orDocScore (realIdf 2) 2 toyDl [toyAlpha] 1, 1)] := by
  rw [mergeListsOr]
  rw [show unionDocIds (List.map layerDocIds [toyAlpha]) = [1, 2] by decide]
  rw [topkFoldHeap]
  simp only [List.foldl_cons, List.foldl_nil]
  rw [heapStep_of_lt Prod.fst 10 []
    (orDocScore (realIdf 2) 2 toyDl [toyAlpha] 1, 1) (by simp)]
  simp only [List.orderedInsert]
  rw [heapStep_of_lt Prod.fst 10
    [(orDocScore (realIdf 2) 2 toyDl [toyAlpha] 1, 1)]
    (orDocScore (realIdf 2) 2 toyDl [toyAlpha] 2, 2) (by simp)]
  simp only [List.orderedInsert]
  rw [if_neg (not_le.mpr toy_score_lt)]
  rfl

/-- **C2-adjacent note: C8 (counterexample)** On the toy collection the
single-term OR query `alpha` does not behave as claimed: the BM25 scores of
doc 1 and doc 2 differ (doc 1 is longer, so its score is strictly lower),
and the first returned result is docID 2, not docID 1. -/
theorem s1_toy_counterexample :
    orDocScore (realIdf 2) 2 toyDl [toyAlpha] 1 ≠
        orDocScore (realIdf 2) 2 toyDl [toyAlpha] 2 ∧
      ((mergeListsOr 10 (realIdf 2) 2 toyDl [toyAlpha]).map
        Prod.snd).head? = some 2 := by
  refine ⟨ne_of_lt toy_score_lt, ?_⟩
  rw [toy_merge_eval]
  rfl

/-- **C8 (amended)** On the toy collection (doc 1 = "alpha beta beta",
doc 2 = "alpha gamma", `collection_average_doc_len = 5 / 2 = 2` by integer
division, `N = 2`), the single-term OR query `alpha` matches both documents
with frequency 1 each, the BM25 score (k1 = 2, b = 0.75,
idf = log10(1.2)) of doc 2 strictly exceeds that of doc 1 (doc 1 is
longer), the result size is 2, and the first result is docID 2. -/
theorem s1_toy_amended :
    layerFreq toyAlpha 1 = 1 ∧ layerFreq toyAlpha 2 = 1 ∧
    ((2 : ℝ) = (loadCollectionAverageDocLen 5 2 : ℕ)) ∧
    (mergeListsOr 10 (realIdf 2) 2 toyDl [toyAlpha]).length = 2 ∧
    (mergeListsOr 10 (realIdf 2) 2 toyDl [toyAlpha]).map Prod.snd =
      [2, 1] ∧
    orDocScore (realIdf 2) 2 toyDl [toyAlpha] 1 <
      orDocScore (realIdf 2) 2 toyDl [toyAlpha] 2 := by
  refine ⟨by decide, by decide, by norm_num [loadCollectionAverageDocLen],
    ?_, ?_, toy_score_lt⟩
  · rw [toy_merge_eval]; rfl
  · rw [toy_merge_eval]; rfl

/-! ## C2: early termination of `ProcessLayeredQuery` vs. the full rerun -/

lemma processLayeredQuery_eq (k : ℕ) (idfOf : ℕ → F) (avgdl : F)
    (dl : ℕ → F) (terms : List (DualLayerTerm F)) :
    processLayeredQuery k idfOf avgdl dl terms =
      match (mergedTopK k
          ((perTermLists [] terms).map
            (intersectLists k idfOf avgdl dl)))[k - 1]? with
      | some r =>
        if (terms.map (·.lastThreshold)).sum < r.1 then
          (mergedTopK k
            ((perTermLists [] terms).map (intersectLists k idfOf avgdl dl)),
            true)
        else (intersectLists k idfOf avgdl dl (terms.map (·.layer1)), false)
      | none =>
        (intersectLists k idfOf avgdl dl (terms.map (·.layer1)), false) := rfl

lemma intersectLists_cons (k : ℕ) (idfOf : ℕ → F) (avgdl : F) (dl : ℕ → F)
    (L : ListLayer) (rest : List ListLayer) :
    intersectLists k idfOf avgdl dl (L :: rest) =
      (topkFoldHeap k (listsScore idfOf avgdl dl (L :: rest))
        (intersectLoop (rest.map layerDocIds) (layerDocIds L) 0)).reverse :=
  rfl

lemma topkFoldHeap_singleton (k : ℕ) (score : ℕ → F) (d : ℕ) (hk : 0 < k) :
    topkFoldHeap k score [d] = [(score d, d)] := by
  rw [topkFoldHeap]
  simp only [List.foldl_cons, List.foldl_nil]
  rw [heapStep_of_lt Prod.fst k [] (score d, d) (by simpa)]
  rfl

lemma mergeRound_succ (fuel : ℕ) (fronts : List (List (F × ℕ))) :
    mergeRound (fuel + 1) fronts =
      match bestFront fronts with
      | none => []
      | some (i, e) => e :: mergeRound fuel (fronts.modify List.tail i) :=
  rfl

lemma bestFront_pair (e₁ e₂ : F × ℕ)
    (h : e₁.1 < e₂.1 ∨ (e₁.1 = e₂.1 ∧ e₁.2 ≤ e₂.2)) :
    bestFront [[e₁], [e₂]] = some (1, e₂) := by
  show (if e₁.1 < e₂.1 ∨ (e₁.1 = e₂.1 ∧ e₁.2 ≤ e₂.2)
      then (some (1, e₂) : Option (ℕ × (F × ℕ))) else some (0, e₁)) =
    some (1, e₂)
  rw [if_pos h]

lemma mergeRound_pair (e₁ e₂ : F × ℕ)
    (h : e₁.1 < e₂.1 ∨ (e₁.1 = e₂.1 ∧ e₁.2 ≤ e₂.2)) :
    mergeRound 2 [[e₁], [e₂]] = [e₂, e₁] := by
  rw [show (2 : ℕ) = 1 + 1 from rfl, mergeRound_succ, bestFront_pair e₁ e₂ h]
  show e₂ :: mergeRound 1 (List.modify List.tail 1 [[e₁], [e₂]]) = [e₂, e₁]
  rw [show (List.modify List.tail 1 [[e₁], [e₂]]) = [[e₁], []] from rfl]
  rw [show (1 : ℕ) = 0 + 1 from rfl, mergeRound_succ]
  rw [show bestFront [[e₁], ([] : List (F × ℕ))] = some (0, e₁) from rfl]
  rfl

lemma mergedTopK_pair (e₁ e₂ : F × ℕ)
    (h : e₁.1 < e₂.1 ∨ (e₁.1 = e₂.1 ∧ e₁.2 ≤ e₂.2)) :
    mergedTopK 1 [[e₁], [e₂]] = [e₂] := by
  rw [mergedTopK]
  rw [show (([[e₁], [e₂]].map List.length).sum) = 2 from rfl]
  rw [mergeRound_pair e₁ e₂ h]
  rfl

/-! The tie instance.  Collection of `N = 10` documents, all of length 4
(`collection_average_doc_len = 4`).  Two query terms, `k = 1`:

* term A: complete list `{5 (freq 2), 9 (freq 1)}`; its layer 0 holds
  docID 5, its last layer both; `layer_score_threshold` of the last layer
  is the score of its layer-1-only posting 9, i.e. `idf · bm25(f=1) = idf`.
* term B: the mirror image — complete list `{5 (freq 1), 9 (freq 2)}`,
  layer 0 holds docID 9.

Both terms have `num_docs_complete_list = 2`, so both use the same IDF
`I = realIdf 10 2`, and both docs 5 and 9 get the identical full score
`I·bm25(2) + I·bm25(1) = (5/2)·I`: an exact score tie. -/

def ctDl : ℕ → ℝ := fun _ => 4

def ctL0A : ListLayer := ⟨[(5, 2)], 2⟩

def ctL1A : ListLayer := ⟨[(5, 2), (9, 1)], 2⟩

def ctL0B : ListLayer := ⟨[(9, 2)], 2⟩

def ctL1B : ListLayer := ⟨[(5, 1), (9, 2)], 2⟩

noncomputable def ctTermA : DualLayerTerm ℝ := ⟨ctL0A, ctL1A, realIdf 10 2⟩

noncomputable def ctTermB : DualLayerTerm ℝ := ⟨ctL0B, ctL1B, realIdf 10 2⟩

noncomputable def ctScoreA : ℝ :=
  listsScore (realIdf 10) 4 ctDl [ctL0A, ctL1B] 5

noncomputable def ctScoreB : ℝ :=
  listsScore (realIdf 10) 4 ctDl [ctL0B, ctL1A] 9

lemma ct_idf_pos : 0 < realIdf 10 2 := by
  rw [realIdf]
  refine Real.logb_pos (by norm_num) ?_
  norm_num

lemma ct_bm25_two : bm25Partial (4 : ℝ) 4 ((2 : ℕ) : ℝ) = 3 / 2 := by
  rw [bm25Partial, kBm25K1, kBm25B]
  norm_num

lemma ct_bm25_one : bm25Partial (4 : ℝ) 4 ((1 : ℕ) : ℝ) = 1 := by
  rw [bm25Partial, kBm25K1, kBm25B]
  norm_num

lemma ct_scoreA_eval : ctScoreA = realIdf 10 2 * (3 / 2) + realIdf 10 2 := by
  rw [ctScoreA, listsScore]
  simp only [List.map_cons, List.map_nil, List.sum_cons, List.sum_nil,
    add_zero, layerScore]
  rw [show layerFreq ctL0A 5 = 2 from by decide,
    show layerFreq ctL1B 5 = 1 from by decide]
  rw [show ctL0A.numDocsCompleteList = 2 from rfl,
    show ctL1B.numDocsCompleteList = 2 from rfl]
  rw [show ctDl 5 = (4 : ℝ) from rfl]
  rw [ct_bm25_two, ct_bm25_one]
  ring

lemma ct_scoreB_eval : ctScoreB = realIdf 10 2 * (3 / 2) + realIdf 10 2 := by
  rw [ctScoreB, listsScore]
  simp only [List.map_cons, List.map_nil, List.sum_cons, List.sum_nil,
    add_zero, layerScore]
  rw [show layerFreq ctL0B 9 = 2 from by decide,
    show layerFreq ctL1A 9 = 1 from by decide]
  rw [show ctL0B.numDocsCompleteList = 2 from rfl,
    show ctL1A.numDocsCompleteList = 2 from rfl]
  rw [show ctDl 9 = (4 : ℝ) from rfl]
  rw [ct_bm25_two, ct_bm25_one]
  ring

lemma ct_scores_eq : ctScoreA = ctScoreB := by
  rw [ct_scoreA_eval, ct_scoreB_eval]

lemma ct_int1 :
    intersectLists 1 (realIdf 10) 4 ctDl [ctL0A, ctL1B] = [(ctScoreA, 5)] := by
  rw [intersectLists_cons]
  rw [show intersectLoop ([ctL1B].map layerDocIds) (layerDocIds ctL0A) 0 =
      [5] from by decide]
  rw [topkFoldHeap_singleton 1 _ 5 (by norm_num)]
  rfl

lemma ct_int2 :
    intersectLists 1 (realIdf 10) 4 ctDl [ctL0B, ctL1A] = [(ctScoreB, 9)] := by
  rw [intersectLists_cons]
  rw [show intersectLoop ([ctL1A].map layerDocIds) (layerDocIds ctL0B) 0 =
      [9] from by decide]
  rw [topkFoldHeap_singleton 1 _ 9 (by norm_num)]
  rfl

lemma ct_ints :
    (perTermLists [] [ctTermA, ctTermB]).map
        (intersectLists 1 (realIdf 10) 4 ctDl) =
      [[(ctScoreA, 5)], [(ctScoreB, 9)]] := by
  rw [show perTermLists [] [ctTermA, ctTermB] =
      [[ctL0A, ctL1B], [ctL0B, ctL1A]] from rfl]
  rw [List.map_cons, List.map_cons, List.map_nil, ct_int1, ct_int2]

lemma ct_threshold_lt :
    ([ctTermA, ctTermB].map (·.lastThreshold)).sum < ctScoreB := by
  rw [show ([ctTermA, ctTermB].map (·.lastThreshold)).sum =
      realIdf 10 2 + (realIdf 10 2 + 0) from rfl]
  rw [ct_scoreB_eval]
  nlinarith [ct_idf_pos]

lemma ct_layered_result :
    processLayeredQuery 1 (realIdf 10) 4 ctDl [ctTermA, ctTermB] =
      ([(ctScoreB, 9)], true) := by
  rw [processLayeredQuery_eq, ct_ints]
  rw [mergedTopK_pair (ctScoreA, 5) (ctScoreB, 9)
    (Or.inr ⟨ct_scores_eq, by norm_num⟩)]
  rw [show ([(ctScoreB, 9)] : List (ℝ × ℕ))[1 - 1]? = some (ctScoreB, 9)
      from rfl]
  show (if ([ctTermA, ctTermB].map (·.lastThreshold)).sum < (ctScoreB, 9).1
      then (([(ctScoreB, 9)] : List (ℝ × ℕ)), true)
      else (intersectLists 1 (realIdf 10) 4 ctDl
        ([ctTermA, ctTermB].map (·.layer1)), false)) =
    ([(ctScoreB, 9)], true)
  rw [if_pos ct_threshold_lt]

lemma ct_full_scores_eq :
    listsScore (realIdf 10) 4 ctDl [ctL1A, ctL1B] 5 =
      listsScore (realIdf 10) 4 ctDl [ctL1A, ctL1B] 9 := by
  rw [listsScore, listsScore]
  simp only [List.map_cons, List.map_nil, List.sum_cons, List.sum_nil,
    add_zero, layerScore]
  rw [show layerFreq ctL1A 5 = 2 from by decide,
    show layerFreq ctL1B 5 = 1 from by decide,
    show layerFreq ctL1A 9 = 1 from by decide,
    show layerFreq ctL1B 9 = 2 from by decide]
  rw [show ctL1A.numDocsCompleteList = 2 from rfl,
    show ctL1B.numDocsCompleteList = 2 from rfl]
  rw [show ctDl 5 = (4 : ℝ) from rfl, show ctDl 9 = (4 : ℝ) from rfl]
  ring

lemma ct_full :
    intersectLists 1 (realIdf 10) 4 ctDl [ctL1A, ctL1B] =
      [(listsScore (realIdf 10) 4 ctDl [ctL1A, ctL1B] 5, 5)] := by
  rw [intersectLists_cons]
  rw [show intersectLoop ([ctL1B].map layerDocIds) (layerDocIds ctL1A) 0 =
      [5, 9] from by decide]
  rw [topkFoldHeap]
  simp only [List.foldl_cons, List.foldl_nil]
  rw [heapStep_of_lt Prod.fst 1 []
    (listsScore (realIdf 10) 4 ctDl [ctL1A, ctL1B] 5, 5) (by simp)]
  simp only [List.orderedInsert]
  rw [heapStep_cons]
  rw [if_neg (by simp)]
  rw [if_neg (not_lt.mpr (le_of_eq ct_full_scores_eq.symm))]
  rfl

/-- **C2 (counterexample)** An exact score tie breaks rank-safety: on the
two-term, `k = 1` tie instance above, `ProcessLayeredQuery` declares early
termination (the single merged score `(5/2)·I` strictly exceeds the
threshold sum `2·I`), yet its returned docID set is `{9}` — the merge
max-heap breaks the score tie towards the larger docID — while DAAT-AND on
the full last-layer lists returns `{5}`: the top-k heap keeps the earlier
docID on a tie (`if (results[0].first < result.first)` is false,
query_processor.cc:2167). -/
theorem processLayeredQuery_tie_counterexample :
    (processLayeredQuery 1 (realIdf 10) 4 ctDl [ctTermA, ctTermB]).2 =
        true ∧
      ((processLayeredQuery 1 (realIdf 10) 4 ctDl
        [ctTermA, ctTermB]).1).map Prod.snd = [9] ∧
      (intersectLists 1 (realIdf 10) 4 ctDl
        ([ctTermA, ctTermB].map (·.layer1))).map Prod.snd = [5] := by
  refine ⟨?_, ?_, ?_⟩
  · rw [ct_layered_result]
  · rw [ct_layered_result]
    rfl
  · rw [show [ctTermA, ctTermB].map (·.layer1) = [ctL1A, ctL1B] from rfl]
    rw [ct_full]
    rfl

/-! ### Characterizing the DAAT-AND traversal

`IntersectLists` is driven by the first list's docID stream; the traversal
visits exactly the docIDs present in every list, in ascending order.  This
is made precise by `intersectLoop_filter` below. -/

/-- The docIDs `IntersectLists` scores: the intersection of the lists'
docID streams, driven by the first list (query_processor.cc:2070-2181). -/
def intersectDocs (lists : List ListLayer) : List ℕ :=
  match lists.map layerDocIds with
  | [] => []
  | l0 :: others => intersectLoop others l0 0

lemma intersectDocs_cons (L : ListLayer) (rest : List ListLayer) :
    intersectDocs (L :: rest) =
      intersectLoop (rest.map layerDocIds) (layerDocIds L) 0 := rfl

lemma listNextGEQ_none {l : List ℕ} {t : ℕ} (h : listNextGEQ l t = none) :
    ∀ x ∈ l, x < t := by
  intro x hx
  have := List.find?_eq_none.mp h x hx
  simpa using this

lemma listNextGEQ_some {l : List ℕ} {t d : ℕ} (h : listNextGEQ l t = some d) :
    d ∈ l ∧ t ≤ d :=
  ⟨List.mem_of_find?_eq_some h, by simpa using List.find?_some h⟩

lemma listNextGEQ_min {l : List ℕ} (hl : List.Chain' (· < ·) l) {t d : ℕ}
    (h : listNextGEQ l t = some d) : ∀ x ∈ l, t ≤ x → d ≤ x := by
  induction l with
  | nil => intro x hx; simp at hx
  | cons a l' ih =>
    intro x hx htx
    by_cases ha : t ≤ a
    · rw [listNextGEQ, List.find?_cons_of_pos _ (by simpa using ha)] at h
      have hda : a = d := by simpa using h
      subst hda
      rcases List.mem_cons.mp hx with rfl | hx'
      · exact le_refl _
      · exact (List.rel_of_pairwise_cons (List.chain'_iff_pairwise.mp hl)
          hx').le
    · rw [listNextGEQ, List.find?_cons_of_neg _ (by simpa using ha)] at h
      rcases List.mem_cons.mp hx with rfl | hx'
      · exact absurd htx ha
      · exact ih hl.tail h x hx' htx

lemma listNextGEQ_self {l : List ℕ} (hl : List.Chain' (· < ·) l) {d : ℕ}
    (hd : d ∈ l) : listNextGEQ l d = some d := by
  cases h : listNextGEQ l d with
  | none => exact absurd (listNextGEQ_none h d hd) (by omega)
  | some d' =>
    have h1 := (listNextGEQ_some h).2
    have h2 := listNextGEQ_min hl h d hd (le_refl d)
    rw [show d' = d by omega]

lemma probeLists_cons (l : List ℕ) (ls : List (List ℕ)) (did : ℕ) :
    probeLists (l :: ls) did =
      match listNextGEQ l did with
      | none => none
      | some d => if d = did then probeLists ls did else some d := rfl

lemma probeLists_cons_none {l : List ℕ} (ls : List (List ℕ)) {did : ℕ}
    (h : listNextGEQ l did = none) : probeLists (l :: ls) did = none := by
  rw [probeLists_cons, h]

lemma probeLists_cons_some {l : List ℕ} (ls : List (List ℕ)) {did d : ℕ}
    (h : listNextGEQ l did = some d) :
    probeLists (l :: ls) did =
      if d = did then probeLists ls did else some d := by
  rw [probeLists_cons, h]

lemma probeLists_self {others : List (List ℕ)} {d : ℕ}
    (hall : ∀ l ∈ others, List.Chain' (· < ·) l)
    (h : ∀ l ∈ others, d ∈ l) : probeLists others d = some d := by
  induction others with
  | nil => rfl
  | cons l ls ih =>
    rw [probeLists_cons,
      listNextGEQ_self (hall l (List.mem_cons_self l ls))
        (h l (List.mem_cons_self l ls))]
    show (if d = d then probeLists ls d else some d) = some d
    rw [if_pos rfl]
    exact ih (fun l' hl' => hall l' (List.mem_cons_of_mem l hl'))
      (fun l' hl' => h l' (List.mem_cons_of_mem l hl'))

lemma probeLists_eq_self {others : List (List ℕ)} {d : ℕ}
    (h : probeLists others d = some d) : ∀ l ∈ others, d ∈ l := by
  induction others with
  | nil => intro l hl; simp at hl
  | cons l ls ih =>
    intro l' hl'
    cases hf : listNextGEQ l d with
    | none => rw [probeLists_cons_none ls hf] at h; simp at h
    | some d' =>
      rw [probeLists_cons_some ls hf] at h
      by_cases hd' : d' = d
      · subst hd'
        rw [if_pos rfl] at h
        rcases List.mem_cons.mp hl' with rfl | hmem
        · exact (listNextGEQ_some hf).1
        · exact ih h l' hmem
      · rw [if_neg hd'] at h
        simp at h
        exact absurd h hd'

lemma probeLists_none {others : List (List ℕ)} {d : ℕ}
    (h : probeLists others d = none) : ∃ l ∈ others, ∀ x ∈ l, x < d := by
  induction others with
  | nil => simp [probeLists] at h
  | cons l ls ih =>
    cases hf : listNextGEQ l d with
    | none => exact ⟨l, List.mem_cons_self l ls, listNextGEQ_none hf⟩
    | some d' =>
      rw [probeLists_cons_some ls hf] at h
      by_cases hd' : d' = d
      · rw [if_pos hd'] at h
        obtain ⟨l', hl', hx⟩ := ih h
        exact ⟨l', List.mem_cons_of_mem l hl', hx⟩
      · rw [if_neg hd'] at h
        simp at h

lemma probeLists_some_ne {others : List (List ℕ)} {d dj : ℕ}
    (hall : ∀ l ∈ others, List.Chain' (· < ·) l)
    (h : probeLists others d = some dj) (hne : dj ≠ d) :
    d < dj ∧ ∃ l ∈ others, ∀ x ∈ l, d ≤ x → dj ≤ x := by
  induction others with
  | nil =>
    exfalso
    apply hne
    simpa [probeLists] using h.symm
  | cons l ls ih =>
    cases hf : listNextGEQ l d with
    | none => rw [probeLists_cons_none ls hf] at h; simp at h
    | some d' =>
      rw [probeLists_cons_some ls hf] at h
      by_cases hd' : d' = d
      · rw [if_pos hd'] at h
        obtain ⟨hlt, l', hl', hmin⟩ := ih
          (fun l' hl' => hall l' (List.mem_cons_of_mem l hl')) h
        exact ⟨hlt, l', List.mem_cons_of_mem l hl', hmin⟩
      · rw [if_neg hd'] at h
        have hdj : d' = dj := by simpa using h
        subst hdj
        refine ⟨lt_of_le_of_ne (listNextGEQ_some hf).2 (Ne.symm hne), l,
          List.mem_cons_self l ls, ?_⟩
        exact listNextGEQ_min (hall l (List.mem_cons_self l ls)) hf

lemma intersectLoop_cons (others : List (List ℕ)) (d : ℕ) (ds : List ℕ)
    (did : ℕ) :
    intersectLoop others (d :: ds) did =
      if d < did then intersectLoop others ds did
      else
        match probeLists others d with
        | none => []
        | some dj =>
          if dj = d then d :: intersectLoop others ds (d + 1)
          else intersectLoop others ds dj := rfl

lemma intersectLoop_cons_skip {others : List (List ℕ)} {d : ℕ} {ds : List ℕ}
    {did : ℕ} (h : d < did) :
    intersectLoop others (d :: ds) did = intersectLoop others ds did := by
  rw [intersectLoop_cons, if_pos h]

lemma intersectLoop_cons_none {others : List (List ℕ)} {d : ℕ} {ds : List ℕ}
    {did : ℕ} (h1 : ¬ d < did) (h2 : probeLists others d = none) :
    intersectLoop others (d :: ds) did = [] := by
  rw [intersectLoop_cons, if_neg h1, h2]

lemma intersectLoop_cons_hit {others : List (List ℕ)} {d : ℕ} {ds : List ℕ}
    {did : ℕ} (h1 : ¬ d < did) (h2 : probeLists others d = some d) :
    intersectLoop others (d :: ds) did =
      d :: intersectLoop others ds (d + 1) := by
  rw [intersectLoop_cons, if_neg h1, h2]
  show (if d = d then d :: intersectLoop others ds (d + 1)
    else intersectLoop others ds d) = d :: intersectLoop others ds (d + 1)
  rw [if_pos rfl]

lemma intersectLoop_cons_miss {others : List (List ℕ)} {d : ℕ} {ds : List ℕ}
    {did dj : ℕ} (h1 : ¬ d < did) (h2 : probeLists others d = some dj)
    (h3 : dj ≠ d) :
    intersectLoop others (d :: ds) did = intersectLoop others ds dj := by
  rw [intersectLoop_cons, if_neg h1, h2]
  show (if dj = d then d :: intersectLoop others ds (d + 1)
    else intersectLoop others ds dj) = intersectLoop others ds dj
  rw [if_neg h3]

lemma intersectLoop_filter (others : List (List ℕ))
    (hall : ∀ l ∈ others, List.Chain' (· < ·) l) :
    ∀ (l0 : List ℕ), List.Chain' (· < ·) l0 → ∀ (did : ℕ),
      intersectLoop others l0 did =
        l0.filter (fun d => decide (did ≤ d ∧ ∀ l ∈ others, d ∈ l)) := by
  intro l0
  induction l0 with
  | nil => intro _ did; rfl
  | cons d ds ih =>
    intro hsort did
    have hds := hsort.tail
    have hlt : ∀ d' ∈ ds, d < d' :=
      fun d' hd' =>
        List.rel_of_pairwise_cons (List.chain'_iff_pairwise.mp hsort) hd'
    by_cases hd : d < did
    · rw [intersectLoop_cons_skip hd, ih hds did,
        List.filter_cons_of_neg (by simp; omega)]
    · push_neg at hd
      cases hp : probeLists others d with
      | none =>
        rw [intersectLoop_cons_none (by omega) hp]
        obtain ⟨l, hl, hlall⟩ := probeLists_none hp
        symm
        rw [List.filter_eq_nil_iff]
        intro a ha
        simp only [decide_eq_true_eq, not_and]
        intro _ hmem
        have hal := hmem l hl
        have halt := hlall a hal
        rcases List.mem_cons.mp ha with rfl | ha'
        · omega
        · have := hlt a ha'
          omega
      | some dj =>
        by_cases hdj : dj = d
        · subst hdj
          rw [intersectLoop_cons_hit (by omega) hp, ih hds (dj + 1),
            List.filter_cons_of_pos
              (by simp [hd]; exact probeLists_eq_self hp)]
          congr 1
          refine List.filter_congr ?_
          intro a ha
          have := hlt a ha
          rw [decide_eq_decide]
          constructor
          · rintro ⟨_, h2⟩; exact ⟨by omega, h2⟩
          · rintro ⟨_, h2⟩; exact ⟨by omega, h2⟩
        · rw [intersectLoop_cons_miss (by omega) hp hdj, ih hds dj]
          obtain ⟨hdlt, l, hl, hmin⟩ := probeLists_some_ne hall hp hdj
          have hdnot : d ∉ l := by
            intro hmem
            have := hmin d hmem (le_refl d)
            omega
          rw [List.filter_cons_of_neg
            (by
              simp only [decide_eq_true_eq, not_and]
              intro _ hmem
              exact absurd (hmem l hl) hdnot)]
          refine List.filter_congr ?_
          intro a ha
          have hda := hlt a ha
          rw [decide_eq_decide]
          constructor
          · rintro ⟨_, h2⟩; exact ⟨by omega, h2⟩
          · rintro ⟨_, h2⟩
            refine ⟨hmin a (h2 l hl) (by omega), h2⟩

lemma mem_intersectDocs {L : ListLayer} {rest : List ListLayer}
    (hL : List.Chain' (· < ·) (layerDocIds L))
    (hrest : ∀ L' ∈ rest, List.Chain' (· < ·) (layerDocIds L')) (d : ℕ) :
    d ∈ intersectDocs (L :: rest) ↔
      d ∈ layerDocIds L ∧ ∀ L' ∈ rest, d ∈ layerDocIds L' := by
  rw [intersectDocs_cons, intersectLoop_filter _
    (by
      intro l hl
      obtain ⟨L', hL', rfl⟩ := List.mem_map.mp hl
      exact hrest L' hL') _ hL 0]
  rw [List.mem_filter]
  simp only [decide_eq_true_eq]
  constructor
  · rintro ⟨h1, _, h3⟩
    exact ⟨h1, fun L' hL' => h3 (layerDocIds L') (List.mem_map_of_mem _ hL')⟩
  · rintro ⟨h1, h2⟩
    refine ⟨h1, by omega, ?_⟩
    intro l hl
    obtain ⟨L', hL', rfl⟩ := List.mem_map.mp hl
    exact h2 L' hL'

lemma intersectDocs_sorted {L : ListLayer} {rest : List ListLayer}
    (hL : List.Chain' (· < ·) (layerDocIds L))
    (hrest : ∀ L' ∈ rest, List.Chain' (· < ·) (layerDocIds L')) :
    List.Pairwise (· < ·) (intersectDocs (L :: rest)) := by
  rw [intersectDocs_cons, intersectLoop_filter _
    (by
      intro l hl
      obtain ⟨L', hL', rfl⟩ := List.mem_map.mp hl
      exact hrest L' hL') _ hL 0]
  exact List.Pairwise.sublist (List.filter_sublist _)
    (List.chain'_iff_pairwise.mp hL)

lemma intersectDocs_nodup {L : ListLayer} {rest : List ListLayer}
    (hL : List.Chain' (· < ·) (layerDocIds L))
    (hrest : ∀ L' ∈ rest, List.Chain' (· < ·) (layerDocIds L')) :
    (intersectDocs (L :: rest)).Nodup :=
  (intersectDocs_sorted hL hrest).imp (fun h => Nat.ne_of_lt h)

/-! ### The entry-level top-k heap as a score-level heap

`topkFoldHeap` compares `(score, docID)` entries by score only; mapping a
score-level `KthScore` heap through `fun s => (s, g s)` — with `g` a left
inverse of the score assignment on the traversed docIDs — yields the
entry-level heap, which lets `kthScoreHeap_eq` be reused. -/

lemma orderedInsert_map_key (g : F → ℕ) (s : F) (heap : List F) :
    List.orderedInsert (fun a b : F × ℕ => a.1 ≤ b.1) (s, g s)
        (heap.map (fun x => (x, g x))) =
      (List.orderedInsert (· ≤ ·) s heap).map (fun x => (x, g x)) := by
  induction heap with
  | nil => rfl
  | cons m rest ih =>
    simp only [List.map_cons, List.orderedInsert]
    by_cases h : s ≤ m
    · rw [if_pos h, if_pos h]
      rfl
    · rw [if_neg h, if_neg h, List.map_cons, ih]

lemma heapStep_map (k : ℕ) (g : F → ℕ) (heap : List F) (s : F) :
    heapStep Prod.fst k (heap.map (fun x => (x, g x))) (s, g s) =
      (kthScoreStep k heap s).map (fun x => (x, g x)) := by
  by_cases hlen : heap.length < k
  · rw [heapStep_of_lt Prod.fst k _ _ (by simpa using hlen),
      kthScoreStep_of_lt k heap s hlen]
    exact orderedInsert_map_key g s heap
  · cases heap with
    | nil =>
      have h0 : ¬ 0 < k := by simpa using hlen
      simp [heapStep, kthScoreStep, h0]
    | cons m rest =>
      rw [List.map_cons, heapStep_cons, kthScoreStep_cons]
      rw [if_neg (show ¬ ((m, g m) ::
        rest.map (fun x => (x, g x))).length < k by simpa using hlen)]
      rw [if_neg hlen]
      by_cases hms : m < s
      · rw [if_pos hms, if_pos hms]
        exact orderedInsert_map_key g s rest
      · rw [if_neg hms, if_neg hms, List.map_cons]

lemma topkFoldHeap_map (k : ℕ) (g : F → ℕ) (score : ℕ → F) :
    ∀ (ds : List ℕ) (heap : List F), (∀ d ∈ ds, g (score d) = d) →
      ds.foldl (fun h d => heapStep Prod.fst k h (score d, d))
          (heap.map (fun x => (x, g x))) =
        (List.foldl (kthScoreStep k) heap (ds.map score)).map
          (fun x => (x, g x)) := by
  intro ds
  induction ds with
  | nil => intro heap _; rfl
  | cons d ds ih =>
    intro heap hg
    simp only [List.foldl_cons, List.map_cons]
    have hd : g (score d) = d := hg d (List.mem_cons_self d ds)
    have hstep : heapStep Prod.fst k (heap.map (fun x => (x, g x)))
        (score d, d) =
        (kthScoreStep k heap (score d)).map (fun x => (x, g x)) := by
      conv_lhs => rw [show ((score d, d) : F × ℕ) =
        (score d, g (score d)) by rw [hd]]
      exact heapStep_map k g heap (score d)
    rw [hstep, ih (kthScoreStep k heap (score d))
      (fun x hx => hg x (List.mem_cons_of_mem d hx))]

lemma topkFoldHeap_eq_heap (k : ℕ) (g : F → ℕ) (score : ℕ → F)
    (ds : List ℕ) (hg : ∀ d ∈ ds, g (score d) = d) :
    topkFoldHeap k score ds =
      (kthScoreHeap k (ds.map score)).map (fun x => (x, g x)) := by
  rw [topkFoldHeap, kthScoreHeap]
  exact topkFoldHeap_map k g score ds [] hg

/-! ### Results as prefixes of the descending entry order -/

/-- The `(score, docID)` entries of a docID stream. -/
def entriesOf (score : ℕ → F) (ds : List ℕ) : List (F × ℕ) :=
  ds.map (fun d => (score d, d))

/-- The final `std::sort(results, results + count, ResultCompare())`:
entries ordered by descending score (`ResultCompare` compares
`l.first > r.first` only, query_processor.h:231-238). -/
def sortEntriesDesc (es : List (F × ℕ)) : List (F × ℕ) :=
  es.insertionSort (fun a b => b.1 ≤ a.1)

instance : IsTotal (F × ℕ) (fun a b => b.1 ≤ a.1) :=
  ⟨fun a b => le_total b.1 a.1⟩

instance : IsTrans (F × ℕ) (fun a b => b.1 ≤ a.1) :=
  ⟨fun _ _ _ h1 h2 => le_trans h2 h1⟩

lemma sortEntriesDesc_sorted (es : List (F × ℕ)) :
    (sortEntriesDesc es).Pairwise (fun a b => b.1 ≤ a.1) :=
  List.sorted_insertionSort _ es

lemma sortEntriesDesc_perm (es : List (F × ℕ)) :
    (sortEntriesDesc es).Perm es :=
  List.perm_insertionSort _ es

/-- Two weakly descending lists of entries that are permutations of each
other, in which score ties only occur between equal entries, coincide. -/
lemma eq_of_perm_of_sorted_key :
    ∀ (l₁ l₂ : List (F × ℕ)), l₁.Perm l₂ →
      l₁.Pairwise (fun a b => b.1 ≤ a.1) →
      l₂.Pairwise (fun a b => b.1 ≤ a.1) →
      (∀ x ∈ l₁, ∀ y ∈ l₁, x.1 = y.1 → x = y) → l₁ = l₂ := by
  intro l₁
  induction l₁ with
  | nil => intro l₂ hp _ _ _; exact (hp.symm.eq_nil).symm
  | cons a t₁ ih =>
    intro l₂ hp h₁ h₂ hkey
    have ha₂ : a ∈ l₂ := hp.mem_iff.mp (List.mem_cons_self a t₁)
    cases l₂ with
    | nil => simp at ha₂
    | cons b t₂ =>
      have hab : a = b := by
        rcases List.mem_cons.mp ha₂ with h | h
        · exact h
        · have h1 : a.1 ≤ b.1 := List.rel_of_pairwise_cons h₂ h
          have hb₁ : b ∈ a :: t₁ :=
            hp.symm.mem_iff.mp (List.mem_cons_self b t₂)
          rcases List.mem_cons.mp hb₁ with h' | h'
          · exact h'.symm
          · exact hkey a (List.mem_cons_self a t₁) b
              (List.mem_cons_of_mem a h')
              (le_antisymm h1 (List.rel_of_pairwise_cons h₁ h'))
      subst hab
      rw [ih t₂ hp.cons_inv h₁.of_cons h₂.of_cons
        (fun x hx y hy h => hkey x (List.mem_cons_of_mem a hx) y
          (List.mem_cons_of_mem a hy) h)]

lemma countP_lt_of_mem_take :
    ∀ (l : List (F × ℕ)) (x : F × ℕ) (k : ℕ),
      l.Pairwise (fun a b => b.1 < a.1) → x ∈ l.take k →
      l.countP (fun y => decide (x.1 < y.1)) < k := by
  intro l
  induction l with
  | nil => intro x k _ hx; simp at hx
  | cons e t ih =>
    intro x k hp hx
    cases k with
    | zero => simp at hx
    | succ k =>
      rw [List.take_succ_cons] at hx
      rcases List.mem_cons.mp hx with hxe | hx'
      · have hzero : (e :: t).countP (fun y => decide (x.1 < y.1)) = 0 := by
          rw [List.countP_eq_zero]
          intro a ha
          simp only [decide_eq_true_eq]
          rcases List.mem_cons.mp ha with hae | ha'
          · rw [hae, hxe]
            exact lt_irrefl _
          · rw [hxe]
            exact not_lt.mpr (List.rel_of_pairwise_cons hp ha').le
        omega
      · have hxt : x.1 < e.1 :=
          List.rel_of_pairwise_cons hp (List.mem_of_mem_take hx')
        rw [List.countP_cons_of_pos _ _ (by simpa using hxt)]
        have := ih x k hp.of_cons hx'
        omega

lemma mem_take_of_countP_lt :
    ∀ (l : List (F × ℕ)) (x : F × ℕ) (k : ℕ),
      l.Pairwise (fun a b => b.1 < a.1) → x ∈ l →
      l.countP (fun y => decide (x.1 < y.1)) < k → x ∈ l.take k := by
  intro l
  induction l with
  | nil => intro x k _ hx; simp at hx
  | cons e t ih =>
    intro x k hp hx hc
    obtain ⟨k, rfl⟩ : ∃ k', k = k' + 1 := ⟨k - 1, by omega⟩
    rw [List.take_succ_cons]
    rcases List.mem_cons.mp hx with hxe | hx'
    · rw [hxe]
      exact List.mem_cons_self _ _
    · have hxh : x.1 < e.1 := List.rel_of_pairwise_cons hp hx'
      rw [List.countP_cons_of_pos _ _ (by simpa using hxh)] at hc
      exact List.mem_cons_of_mem _ (ih x k hp.of_cons hx' (by omega))

/-- Two strictly descending lists agree on their `k`-prefixes as soon as
the smaller one is a subset of the larger and the larger's `k`-prefix is
contained in the smaller. -/
lemma take_eq_take_of_topk :
    ∀ (t : List (F × ℕ)) (k : ℕ) (s : List (F × ℕ)),
      s.Pairwise (fun a b => b.1 < a.1) →
      t.Pairwise (fun a b => b.1 < a.1) →
      (∀ x ∈ s, x ∈ t) → (∀ x ∈ t.take k, x ∈ s) →
      s.take k = t.take k := by
  intro t
  induction t with
  | nil =>
    intro k s _ _ hsub _
    have hs : s = [] :=
      List.eq_nil_iff_forall_not_mem.mpr
        (fun x hx => by simpa using hsub x hx)
    rw [hs]
  | cons b t₂ ih =>
    intro k s hs ht hsub htop
    cases k with
    | zero => simp
    | succ k =>
      have hb : b ∈ s := htop b
        (by rw [List.take_succ_cons]; exact List.mem_cons_self b _)
      cases s with
      | nil => simp at hb
      | cons a s₂ =>
        have hab : a = b := by
          rcases List.mem_cons.mp hb with h | h
          · exact h.symm
          · exfalso
            have h1 : b.1 < a.1 := List.rel_of_pairwise_cons hs h
            have ha : a ∈ b :: t₂ := hsub a (List.mem_cons_self a s₂)
            rcases List.mem_cons.mp ha with h' | h'
            · rw [h'] at h1; exact lt_irrefl _ h1
            · exact lt_asymm h1 (List.rel_of_pairwise_cons ht h')
        subst hab
        rw [List.take_succ_cons, List.take_succ_cons]
        congr 1
        refine ih k s₂ hs.of_cons ht.of_cons ?_ ?_
        · intro x hx
          rcases List.mem_cons.mp
              (hsub x (List.mem_cons_of_mem a hx)) with h' | h'
          · exfalso
            have hlt := List.rel_of_pairwise_cons hs hx
            rw [h'] at hlt
            exact lt_irrefl _ hlt
          · exact h'
        · intro x hx
          have hxt : x ∈ (a :: t₂).take (k + 1) := by
            rw [List.take_succ_cons]
            exact List.mem_cons_of_mem a hx
          rcases List.mem_cons.mp (htop x hxt) with h' | h'
          · exfalso
            have hlt := List.rel_of_pairwise_cons ht
              (List.mem_of_mem_take hx)
            rw [h'] at hlt
            exact lt_irrefl _ hlt
          · exact h'

/-! ### The merge heap: pop order and duplicate filtering -/

/-- The head entry of an indexed intersection result list, as pushed on the
merge heap (`(Result, (i, j))` pairs, query_processor.cc:1016-1026). -/
def headPick (p : ℕ × List (F × ℕ)) : Option (ℕ × (F × ℕ)) :=
  match p.2 with
  | [] => none
  | e :: _ => some (p.1, e)

/-- One comparison of the merge max-heap: a later candidate displaces the
current best exactly when it is larger in the `(score, docID)`
lexicographic order (ties towards the later intersection index). -/
def bestStep (best : Option (ℕ × (F × ℕ))) (c : ℕ × (F × ℕ)) :
    Option (ℕ × (F × ℕ)) :=
  match best with
  | none => some c
  | some b =>
    if b.2.1 < c.2.1 ∨ (b.2.1 = c.2.1 ∧ b.2.2 ≤ c.2.2) then some c
    else some b

lemma bestFront_eq (fronts : List (List (F × ℕ))) :
    bestFront fronts =
      (fronts.enum.filterMap headPick).foldl bestStep none := rfl

lemma bestStep_ne_none (best : Option (ℕ × (F × ℕ))) (c : ℕ × (F × ℕ)) :
    bestStep best c ≠ none := by
  cases best with
  | none => simp [bestStep]
  | some b =>
    simp only [bestStep]
    split <;> simp

lemma bestStep_foldl_none :
    ∀ (cs : List (ℕ × (F × ℕ))) (acc : Option (ℕ × (F × ℕ))),
      cs.foldl bestStep acc = none → cs = [] ∧ acc = none := by
  intro cs
  induction cs with
  | nil => intro acc h; exact ⟨rfl, h⟩
  | cons c cs ih =>
    intro acc h
    rw [List.foldl_cons] at h
    exact absurd (ih _ h).2 (bestStep_ne_none acc c)

lemma bestStep_foldl_spec :
    ∀ (cs : List (ℕ × (F × ℕ))) (acc : Option (ℕ × (F × ℕ))) (i : ℕ)
      (e : F × ℕ), cs.foldl bestStep acc = some (i, e) →
      ((i, e) ∈ cs ∨ acc = some (i, e)) ∧ (∀ c ∈ cs, c.2.1 ≤ e.1) ∧
        (∀ j b, acc = some (j, b) → b.1 ≤ e.1) := by
  intro cs
  induction cs with
  | nil =>
    intro acc i e h
    simp only [List.foldl_nil] at h
    refine ⟨Or.inr h, by simp, ?_⟩
    intro j b hb
    rw [hb] at h
    have hpair : (j, b) = (i, e) := by simpa using h
    rw [show b = e from congrArg Prod.snd hpair]
  | cons c cs ih =>
    intro acc i e h
    rw [List.foldl_cons] at h
    obtain ⟨hmem, hall, hacc⟩ := ih (bestStep acc c) i e h
    have hcbound : c.2.1 ≤ e.1 := by
      cases acc with
      | none => exact hacc c.1 c.2 rfl
      | some b =>
        by_cases hcond : b.2.1 < c.2.1 ∨ (b.2.1 = c.2.1 ∧ b.2.2 ≤ c.2.2)
        · exact hacc c.1 c.2 (by
            rw [show bestStep (some b) c = if b.2.1 < c.2.1 ∨
              (b.2.1 = c.2.1 ∧ b.2.2 ≤ c.2.2) then some c else some b
              from rfl, if_pos hcond])
        · have hbb : b.2.1 ≤ e.1 := hacc b.1 b.2 (by
            rw [show bestStep (some b) c = if b.2.1 < c.2.1 ∨
              (b.2.1 = c.2.1 ∧ b.2.2 ≤ c.2.2) then some c else some b
              from rfl, if_neg hcond])
          push_neg at hcond
          exact le_trans hcond.1 hbb
    refine ⟨?_, ?_, ?_⟩
    · rcases hmem with hm | hm
      · exact Or.inl (List.mem_cons_of_mem c hm)
      · cases acc with
        | none =>
          have hc : c = (i, e) := by simpa [bestStep] using hm
          exact Or.inl (hc ▸ List.mem_cons_self c cs)
        | some b =>
          rw [show bestStep (some b) c = if b.2.1 < c.2.1 ∨
            (b.2.1 = c.2.1 ∧ b.2.2 ≤ c.2.2) then some c else some b
            from rfl] at hm
          by_cases hcond : b.2.1 < c.2.1 ∨ (b.2.1 = c.2.1 ∧ b.2.2 ≤ c.2.2)
          · rw [if_pos hcond] at hm
            have hc : c = (i, e) := by simpa using hm
            exact Or.inl (hc ▸ List.mem_cons_self c cs)
          · rw [if_neg hcond] at hm
            exact Or.inr hm
    · intro c' hc'
      rcases List.mem_cons.mp hc' with hh | ht
      · rw [hh]
        exact hcbound
      · exact hall c' ht
    · intro j b hb
      subst hb
      by_cases hcond : b.1 < c.2.1 ∨ (b.1 = c.2.1 ∧ b.2 ≤ c.2.2)
      · rcases hcond with h1 | h1
        · exact le_trans h1.le hcbound
        · exact le_trans (le_of_eq h1.1) hcbound
      · exact hacc j b (by
          rw [show bestStep (some (j, b)) c = if b.1 < c.2.1 ∨
            (b.1 = c.2.1 ∧ b.2 ≤ c.2.2) then some c else some (j, b)
            from rfl, if_neg hcond])

lemma filterMap_headPick_nil :
    ∀ (fronts : List (List (F × ℕ))) (n : ℕ),
      (List.enumFrom n fronts).filterMap headPick = [] →
      ∀ f ∈ fronts, f = [] := by
  intro fronts
  induction fronts with
  | nil => intro n _ f hf; simp at hf
  | cons f₀ fs ih =>
    intro n h f hf
    rw [List.enumFrom_cons] at h
    cases f₀ with
    | nil =>
      rcases List.mem_cons.mp hf with hh | hmem
      · exact hh
      · refine ih (n + 1) ?_ f hmem
        rwa [List.filterMap_cons_none
          (show headPick (n, ([] : List (F × ℕ))) = none from rfl)] at h
    | cons e t =>
      exfalso
      rw [List.filterMap_cons_some
        (show headPick (n, e :: t) = some (n, e) from rfl)] at h
      simp at h

lemma headPick_mem :
    ∀ (fronts : List (List (F × ℕ))) (n : ℕ) (e : F × ℕ)
      (t : List (F × ℕ)), (e :: t) ∈ fronts →
      ∃ j, (j, e) ∈ (List.enumFrom n fronts).filterMap headPick := by
  intro fronts
  induction fronts with
  | nil => intro n e t h; simp at h
  | cons f₀ fs ih =>
    intro n e t h
    rw [List.enumFrom_cons]
    rcases List.mem_cons.mp h with hh | hmem
    · refine ⟨n, ?_⟩
      rw [List.filterMap_cons_some
        (show headPick (n, f₀) = some (n, e) by rw [← hh]; rfl)]
      exact List.mem_cons_self _ _
    · obtain ⟨j, hj⟩ := ih (n + 1) e t hmem
      refine ⟨j, ?_⟩
      cases hf₀ : headPick ((n, f₀) : ℕ × List (F × ℕ)) with
      | none =>
        rw [List.filterMap_cons_none hf₀]
        exact hj
      | some c =>
        rw [List.filterMap_cons_some hf₀]
        exact List.mem_cons_of_mem c hj

lemma bestFront_none {fronts : List (List (F × ℕ))}
    (h : bestFront fronts = none) : ∀ f ∈ fronts, f = [] := by
  rw [bestFront_eq] at h
  exact filterMap_headPick_nil fronts 0 (bestStep_foldl_none _ _ h).1

lemma bestFront_some_front {fronts : List (List (F × ℕ))} {i : ℕ}
    {e : F × ℕ} (h : bestFront fronts = some (i, e)) :
    ∃ t, fronts[i]? = some (e :: t) := by
  rw [bestFront_eq] at h
  obtain ⟨hmem, -, -⟩ := bestStep_foldl_spec _ _ _ _ h
  rcases hmem with hm | hm
  · obtain ⟨p, hp, hpick⟩ := List.mem_filterMap.mp hm
    obtain ⟨j, f⟩ := p
    cases f with
    | nil => simp [headPick] at hpick
    | cons e' t =>
      have hje : j = i ∧ e' = e := by simpa [headPick] using hpick
      obtain ⟨rfl, rfl⟩ := hje
      have hmem2 := List.mem_enumFrom hp
      have hb : j < fronts.length := by
        have := hmem2.2.1
        omega
      refine ⟨t, ?_⟩
      rw [List.getElem?_eq_getElem hb]
      exact congrArg some hmem2.2.2.symm
  · simp at hm

lemma bestFront_head_le {fronts : List (List (F × ℕ))} {i : ℕ} {e : F × ℕ}
    (h : bestFront fronts = some (i, e)) :
    ∀ f ∈ fronts, ∀ (x : F × ℕ) (t : List (F × ℕ)), f = x :: t →
      x.1 ≤ e.1 := by
  rw [bestFront_eq] at h
  obtain ⟨-, hall, -⟩ := bestStep_foldl_spec _ _ _ _ h
  intro f hf x t hft
  obtain ⟨j, hj⟩ := headPick_mem fronts 0 x t (hft ▸ hf)
  exact hall (j, x) hj

lemma bestFront_max {fronts : List (List (F × ℕ))} {i : ℕ} {e : F × ℕ}
    (h : bestFront fronts = some (i, e))
    (hs : ∀ f ∈ fronts, f.Pairwise (fun a b => b.1 ≤ a.1)) :
    ∀ x ∈ fronts.flatten, x.1 ≤ e.1 := by
  intro x hx
  obtain ⟨f, hf, hxf⟩ := List.mem_flatten.mp hx
  cases f with
  | nil => simp at hxf
  | cons x₀ t =>
    have h0 : x₀.1 ≤ e.1 := bestFront_head_le h _ hf x₀ t rfl
    rcases List.mem_cons.mp hxf with hxx | hxt
    · rw [hxx]; exact h0
    · exact le_trans (List.rel_of_pairwise_cons (hs _ hf) hxt) h0

lemma flatten_modify_perm :
    ∀ (fronts : List (List (F × ℕ))) (i : ℕ) (e : F × ℕ)
      (t : List (F × ℕ)), fronts[i]? = some (e :: t) →
      fronts.flatten.Perm (e :: (fronts.modify List.tail i).flatten) := by
  intro fronts
  induction fronts with
  | nil => intro i e t h; simp at h
  | cons f fs ih =>
    intro i e t h
    cases i with
    | zero =>
      have hf : f = e :: t := by simpa using h
      subst hf
      exact List.Perm.rfl
    | succ i =>
      have h' : fs[i]? = some (e :: t) := by simpa using h
      have hp := ih i e t h'
      rw [show List.modify List.tail (i + 1) (f :: fs) =
        f :: List.modify List.tail i fs from rfl]
      refine List.Perm.trans ?_
        (@List.perm_middle _ e f (List.modify List.tail i fs).flatten)
      exact List.Perm.append_left f hp

lemma mem_modify_tail :
    ∀ (fronts : List (List (F × ℕ))) (i : ℕ) (f : List (F × ℕ)),
      f ∈ fronts.modify List.tail i →
      f ∈ fronts ∨ ∃ g ∈ fronts, f = g.tail := by
  intro fronts
  induction fronts with
  | nil => intro i f hf; simp at hf
  | cons f₀ fs ih =>
    intro i f hf
    cases i with
    | zero =>
      rw [show List.modify List.tail 0 (f₀ :: fs) = f₀.tail :: fs
        from rfl] at hf
      rcases List.mem_cons.mp hf with hh | hmem
      · exact Or.inr ⟨f₀, List.mem_cons_self f₀ fs, hh⟩
      · exact Or.inl (List.mem_cons_of_mem f₀ hmem)
    | succ i =>
      rw [show List.modify List.tail (i + 1) (f₀ :: fs) =
        f₀ :: List.modify List.tail i fs from rfl] at hf
      rcases List.mem_cons.mp hf with hh | hmem
      · exact Or.inl (hh ▸ List.mem_cons_self f₀ fs)
      · rcases ih i f hmem with hm | ⟨g, hg, hfg⟩
        · exact Or.inl (List.mem_cons_of_mem f₀ hm)
        · exact Or.inr ⟨g, List.mem_cons_of_mem f₀ hg, hfg⟩

/-- The pop sequence of the merge heap is exactly the weakly descending
arrangement of all retained entries, provided score ties happen only
between equal entries. -/
lemma mergeRound_flatten :
    ∀ (n : ℕ) (fronts : List (List (F × ℕ))),
      (fronts.map List.length).sum ≤ n →
      (∀ f ∈ fronts, f.Pairwise (fun a b => b.1 ≤ a.1)) →
      (∀ x ∈ fronts.flatten, ∀ y ∈ fronts.flatten, x.1 = y.1 → x = y) →
      mergeRound n fronts = sortEntriesDesc fronts.flatten := by
  intro n
  induction n with
  | zero =>
    intro fronts hn _ _
    have hflat : fronts.flatten = [] :=
      List.length_eq_zero.mp (by rw [List.length_flatten]; omega)
    rw [hflat]
    rfl
  | succ n ih =>
    intro fronts hn hs hk
    rw [mergeRound_succ]
    cases hbf : bestFront fronts with
    | none =>
      have hflat : fronts.flatten = [] :=
        List.flatten_eq_nil_iff.mpr (bestFront_none hbf)
      rw [hflat]
      rfl
    | some ie =>
      obtain ⟨i, e⟩ := ie
      show e :: mergeRound n (fronts.modify List.tail i) =
        sortEntriesDesc fronts.flatten
      obtain ⟨t, hit⟩ := bestFront_some_front hbf
      have hperm := flatten_modify_perm fronts i e t hit
      have hmax := bestFront_max hbf hs
      have hsubset : ∀ x ∈ (fronts.modify List.tail i).flatten,
          x ∈ fronts.flatten :=
        fun x hx => hperm.mem_iff.mpr (List.mem_cons_of_mem e hx)
      have hsum' : ((fronts.modify List.tail i).map List.length).sum ≤ n := by
        have h1 : (fronts.map List.length).sum =
            ((fronts.modify List.tail i).map List.length).sum + 1 := by
          rw [← List.length_flatten, ← List.length_flatten, hperm.length_eq]
          rfl
        omega
      have hs' : ∀ f ∈ fronts.modify List.tail i,
          f.Pairwise (fun a b => b.1 ≤ a.1) := by
        intro f hf
        rcases mem_modify_tail fronts i f hf with hmem | ⟨g, hg, hfg⟩
        · exact hs f hmem
        · rw [hfg]
          cases g with
          | nil => exact List.Pairwise.nil
          | cons x gs => exact (hs _ hg).of_cons
      have hk' : ∀ x ∈ (fronts.modify List.tail i).flatten,
          ∀ y ∈ (fronts.modify List.tail i).flatten, x.1 = y.1 → x = y :=
        fun x hx y hy h => hk x (hsubset x hx) y (hsubset y hy) h
      rw [ih _ hsum' hs' hk']
      refine eq_of_perm_of_sorted_key _ _ ?_ ?_ (sortEntriesDesc_sorted _) ?_
      · exact (((sortEntriesDesc_perm _).cons e).trans hperm.symm).trans
          (sortEntriesDesc_perm fronts.flatten).symm
      · refine List.pairwise_cons.mpr ⟨?_, sortEntriesDesc_sorted _⟩
        intro y hy
        exact hmax y (hsubset y ((sortEntriesDesc_perm _).subset hy))
      · intro x hx y hy hxy
        have hmem : ∀ z ∈ e :: sortEntriesDesc
            (fronts.modify List.tail i).flatten, z ∈ fronts.flatten := by
          intro z hz
          rcases List.mem_cons.mp hz with hz' | hz'
          · rw [hz']
            exact hperm.mem_iff.mpr (List.mem_cons_self _ _)
          · exact hsubset z ((sortEntriesDesc_perm _).subset hz')
        exact hk x (hmem x hx) y (hmem y hy) hxy

lemma dedupByPrev_cons (prev : ℕ) (e : F × ℕ) (rest : List (F × ℕ)) :
    dedupByPrev prev (e :: rest) =
      if e.2 = prev then dedupByPrev prev rest
      else e :: dedupByPrev e.2 rest := rfl

/-- On a weakly descending pop sequence in which both score and docID
determine the entry, the merge loop's previous-docID filter computes
`List.dedup`: duplicates are runs of identical adjacent entries. -/
lemma dedupKeep_eq_dedup :
    ∀ (l : List (F × ℕ)) (e : F × ℕ),
      (e :: l).Pairwise (fun a b => b.1 ≤ a.1) →
      (∀ x ∈ e :: l, ∀ y ∈ e :: l, x.1 = y.1 → x = y) →
      (∀ x ∈ e :: l, ∀ y ∈ e :: l, x.2 = y.2 → x = y) →
      e :: dedupByPrev e.2 l = (e :: l).dedup := by
  intro l
  induction l with
  | nil =>
    intro e _ _ _
    rw [show dedupByPrev e.2 ([] : List (F × ℕ)) = [] from rfl]
    simp
  | cons x xs ih =>
    intro e hs hkey hdoc
    rw [dedupByPrev_cons]
    by_cases hx2 : x.2 = e.2
    · have hxe : x = e := hdoc x (List.mem_cons_of_mem e
        (List.mem_cons_self x xs)) e (List.mem_cons_self e _) hx2
      subst hxe
      rw [if_pos rfl]
      rw [List.dedup_cons_of_mem (List.mem_cons_self x xs)]
      have hlift : ∀ z ∈ x :: xs, z ∈ x :: x :: xs := by
        intro z hz
        rcases List.mem_cons.mp hz with hh | hh
        · rw [hh]; exact List.mem_cons_self _ _
        · exact List.mem_cons_of_mem _ (List.mem_cons_of_mem _ hh)
      exact ih x hs.of_cons
        (fun a ha b hb hab => hkey a (hlift a ha) b (hlift b hb) hab)
        (fun a ha b hb hab => hdoc a (hlift a ha) b (hlift b hb) hab)
    · have hxe : x ≠ e := fun hh => hx2 (by rw [hh])
      rw [if_neg hx2]
      have henotin : e ∉ x :: xs := by
        intro hein
        rcases List.mem_cons.mp hein with hh | hh
        · exact hxe hh.symm
        · have h1 : x.1 ≤ e.1 := List.rel_of_pairwise_cons hs
            (List.mem_cons_self x xs)
          have h2 : e.1 ≤ x.1 := List.rel_of_pairwise_cons hs.of_cons hh
          exact hxe (hkey x (List.mem_cons_of_mem e
            (List.mem_cons_self x xs)) e (List.mem_cons_self e _)
            (le_antisymm h1 h2))
      rw [List.dedup_cons_of_not_mem henotin]
      congr 1
      exact ih x hs.of_cons
        (fun a ha b hb hab => hkey a (List.mem_cons_of_mem e ha) b
          (List.mem_cons_of_mem e hb) hab)
        (fun a ha b hb hab => hdoc a (List.mem_cons_of_mem e ha) b
          (List.mem_cons_of_mem e hb) hab)

/-- The merged, deduplicated, truncated result list of
`ProcessLayeredQuery`: the `k`-prefix of the deduplicated descending
arrangement of all retained entries. -/
lemma mergedTopK_eq_dedup (k : ℕ) (ints : List (List (F × ℕ)))
    (hs : ∀ f ∈ ints, f.Pairwise (fun a b => b.1 ≤ a.1))
    (hkey : ∀ x ∈ ints.flatten, ∀ y ∈ ints.flatten, x.1 = y.1 → x = y)
    (hdoc : ∀ x ∈ ints.flatten, ∀ y ∈ ints.flatten, x.2 = y.2 → x = y) :
    mergedTopK k ints = ((sortEntriesDesc ints.flatten).dedup).take k := by
  rw [mergedTopK, mergeRound_flatten _ _ (le_refl _) hs hkey]
  cases hS : sortEntriesDesc ints.flatten with
  | nil => rfl
  | cons e rest =>
    show ((e :: dedupByPrev e.2 rest).take k) = ((e :: rest).dedup).take k
    congr 1
    refine dedupKeep_eq_dedup rest e ?_ ?_ ?_
    · rw [← hS]
      exact sortEntriesDesc_sorted _
    · intro x hx y hy hxy
      have hsub : ∀ z ∈ e :: rest, z ∈ ints.flatten := by
        intro z hz
        rw [← hS] at hz
        exact (sortEntriesDesc_perm _).subset hz
      exact hkey x (hsub x hx) y (hsub y hy) hxy
    · intro x hx y hy hxy
      have hsub : ∀ z ∈ e :: rest, z ∈ ints.flatten := by
        intro z hz
        rw [← hS] at hz
        exact (sortEntriesDesc_perm _).subset hz
      exact hdoc x (hsub x hx) y (hsub y hy) hxy

/-! ### Dispatch equations of `ProcessLayeredQuery` -/

lemma processLayeredQuery_of_none {k : ℕ} {idfOf : ℕ → F} {avgdl : F}
    {dl : ℕ → F} {terms : List (DualLayerTerm F)}
    (h : (mergedTopK k ((perTermLists [] terms).map
      (intersectLists k idfOf avgdl dl)))[k - 1]? = none) :
    processLayeredQuery k idfOf avgdl dl terms =
      (intersectLists k idfOf avgdl dl (terms.map (·.layer1)), false) := by
  rw [processLayeredQuery_eq, h]

lemma processLayeredQuery_of_lt {k : ℕ} {idfOf : ℕ → F} {avgdl : F}
    {dl : ℕ → F} {terms : List (DualLayerTerm F)} {r : F × ℕ}
    (h : (mergedTopK k ((perTermLists [] terms).map
      (intersectLists k idfOf avgdl dl)))[k - 1]? = some r)
    (hlt : (terms.map (·.lastThreshold)).sum < r.1) :
    processLayeredQuery k idfOf avgdl dl terms =
      (mergedTopK k ((perTermLists [] terms).map
        (intersectLists k idfOf avgdl dl)), true) := by
  rw [processLayeredQuery_eq, h]
  exact if_pos hlt

lemma processLayeredQuery_of_ge {k : ℕ} {idfOf : ℕ → F} {avgdl : F}
    {dl : ℕ → F} {terms : List (DualLayerTerm F)} {r : F × ℕ}
    (h : (mergedTopK k ((perTermLists [] terms).map
      (intersectLists k idfOf avgdl dl)))[k - 1]? = some r)
    (hge : ¬ (terms.map (·.lastThreshold)).sum < r.1) :
    processLayeredQuery k idfOf avgdl dl terms =
      (intersectLists k idfOf avgdl dl (terms.map (·.layer1)), false) := by
  rw [processLayeredQuery_eq, h]
  exact if_neg hge

/-! ### `IntersectLists` as a descending sorted prefix -/

lemma intersectLists_char (k : ℕ) (hk : 0 < k) (idfOf : ℕ → F) (avgdl : F)
    (dl : ℕ → F) (L : ListLayer) (rest : List ListLayer)
    (hL : List.Chain' (· < ·) (layerDocIds L))
    (hrest : ∀ L' ∈ rest, List.Chain' (· < ·) (layerDocIds L'))
    (hinj : ∀ d₁ ∈ intersectDocs (L :: rest),
      ∀ d₂ ∈ intersectDocs (L :: rest),
        listsScore idfOf avgdl dl (L :: rest) d₁ =
          listsScore idfOf avgdl dl (L :: rest) d₂ → d₁ = d₂) :
    intersectLists k idfOf avgdl dl (L :: rest) =
      (sortEntriesDesc (entriesOf (listsScore idfOf avgdl dl (L :: rest))
        (intersectDocs (L :: rest)))).take k := by
  set σ := listsScore idfOf avgdl dl (L :: rest) with hσ
  set C := intersectDocs (L :: rest) with hC
  set g : F → ℕ := fun s => (C.find? (fun d => decide (σ d = s))).getD 0
    with hgdef
  have hg : ∀ d ∈ C, g (σ d) = d := by
    intro d hd
    cases hf : C.find? (fun d' => decide (σ d' = σ d)) with
    | none =>
      have hcontra := List.find?_eq_none.mp hf d hd
      simp at hcontra
    | some d' =>
      have h1 : σ d' = σ d := by simpa using List.find?_some hf
      have h2 : d' ∈ C := List.mem_of_find?_eq_some hf
      have : d' = d := hinj d' h2 d hd h1
      rw [hgdef]
      simp only [hf, Option.getD_some]
      exact this
  have hloop : intersectLoop (rest.map layerDocIds) (layerDocIds L) 0 = C :=
    rfl
  rw [intersectLists_cons, hloop, topkFoldHeap_eq_heap k g σ C hg,
    kthScoreHeap_eq k hk (C.map σ)]
  set S := List.insertionSort (· ≤ ·) (C.map σ) with hS
  have hSlen : S.length = C.length := by
    rw [hS, List.length_insertionSort, List.length_map]
  rw [← List.map_reverse, List.reverse_drop, List.length_map, hSlen]
  have htake : C.length - (C.length - k) = min k C.length := by omega
  rw [htake, List.map_take]
  have hXlen : (S.reverse.map (fun x => (x, g x))).length = C.length := by
    rw [List.length_map, List.length_reverse, hSlen]
  have hmin : (S.reverse.map (fun x => (x, g x))).take (min k C.length) =
      (S.reverse.map (fun x => (x, g x))).take k := by
    by_cases hkc : k ≤ C.length
    · rw [min_eq_left hkc]
    · rw [min_eq_right (by omega), ← hXlen, List.take_length,
        List.take_of_length_le (by omega)]
  rw [hmin]
  congr 1
  -- the mapped reversed sorted scores are the canonical descending entries
  have hcanon : ∀ z ∈ S.reverse.map (fun x => (x, g x)),
      ∃ d ∈ C, z = (σ d, d) := by
    intro z hz
    obtain ⟨s, hs, rfl⟩ := List.mem_map.mp hz
    have hsS : s ∈ S := List.mem_reverse.mp hs
    rw [hS] at hsS
    have hsC : s ∈ C.map σ := (List.perm_insertionSort _ _).subset hsS
    obtain ⟨d, hd, rfl⟩ := List.mem_map.mp hsC
    exact ⟨d, hd, by rw [hg d hd]⟩
  refine eq_of_perm_of_sorted_key _ _ ?_ ?_ (sortEntriesDesc_sorted _) ?_
  · refine List.Perm.trans ?_ (sortEntriesDesc_perm _).symm
    refine List.Perm.trans (List.Perm.map _ (S.reverse_perm)) ?_
    refine List.Perm.trans (List.Perm.map _ (List.perm_insertionSort _ _)) ?_
    rw [List.map_map]
    refine List.Perm.of_eq ?_
    refine List.map_congr_left ?_
    intro d hd
    show (σ d, g (σ d)) = (σ d, d)
    rw [hg d hd]
  · rw [List.pairwise_map, List.pairwise_reverse]
    have hsorted : S.Pairwise (· ≤ ·) :=
      List.sorted_insertionSort (· ≤ ·) (C.map σ)
    exact hsorted.imp (fun h => h)
  · intro x hx y hy hxy
    obtain ⟨d₁, hd₁, rfl⟩ := hcanon x hx
    obtain ⟨d₂, hd₂, rfl⟩ := hcanon y hy
    have : d₁ = d₂ := hinj d₁ hd₁ d₂ hd₂ hxy
    rw [this]

/-! ### Scores, memberships, and the per-term intersections -/

lemma listsScore_cons (idfOf : ℕ → F) (avgdl : F) (dl : ℕ → F)
    (L : ListLayer) (ls : List ListLayer) (d : ℕ) :
    listsScore idfOf avgdl dl (L :: ls) d =
      layerScore idfOf avgdl dl L d + listsScore idfOf avgdl dl ls d := by
  rw [listsScore, listsScore, List.map_cons, List.sum_cons]

lemma listsScore_perm (idfOf : ℕ → F) (avgdl : F) (dl : ℕ → F)
    {u v : List ListLayer} (hp : u.Perm v) (d : ℕ) :
    listsScore idfOf avgdl dl u d = listsScore idfOf avgdl dl v d :=
  List.Perm.sum_eq (hp.map _)

/-- When a docID lies in a term's first layer, the complete-list length and
the frequency — hence the partial BM25 score — agree between the two
layers. -/
lemma layerScore_layer01 (idfOf : ℕ → F) (avgdl : F) (dl : ℕ → F)
    (t : DualLayerTerm F) (d : ℕ)
    (hn : t.layer0.numDocsCompleteList = t.layer1.numDocsCompleteList)
    (hf : layerFreq t.layer0 d = layerFreq t.layer1 d) :
    layerScore idfOf avgdl dl t.layer0 d =
      layerScore idfOf avgdl dl t.layer1 d := by
  rw [layerScore, layerScore, hn, hf]

lemma mem_intersectDocs_full {terms : List (DualLayerTerm F)}
    (hne : terms ≠ [])
    (hs1 : ∀ t ∈ terms, List.Chain' (· < ·) (layerDocIds t.layer1)) (d : ℕ) :
    d ∈ intersectDocs (terms.map (·.layer1)) ↔
      ∀ t ∈ terms, d ∈ layerDocIds t.layer1 := by
  cases terms with
  | nil => exact absurd rfl hne
  | cons t₀ ts =>
    rw [List.map_cons, mem_intersectDocs (hs1 t₀ (List.mem_cons_self _ _))
      (fun L' hL' => by
        obtain ⟨t', ht', rfl⟩ := List.mem_map.mp hL'
        exact hs1 t' (List.mem_cons_of_mem _ ht'))]
    constructor
    · rintro ⟨h0, hrest⟩ t' ht'
      rcases List.mem_cons.mp ht' with hh | hmem
      · rw [hh]; exact h0
      · exact hrest _ (List.mem_map_of_mem _ hmem)
    · intro h
      refine ⟨h t₀ (List.mem_cons_self _ _), ?_⟩
      intro L' hL'
      obtain ⟨t', ht', rfl⟩ := List.mem_map.mp hL'
      exact h t' (List.mem_cons_of_mem _ ht')

lemma perTermLists_cons (before : List (DualLayerTerm F))
    (t : DualLayerTerm F) (after : List (DualLayerTerm F)) :
    perTermLists before (t :: after) =
      (t.layer0 :: (before.reverse.map (·.layer1) ++
        after.map (·.layer1))) :: perTermLists (before ++ [t]) after := rfl

lemma perTermLists_mem :
    ∀ (after before : List (DualLayerTerm F)) (LS : List ListLayer),
      LS ∈ perTermLists before after →
      ∃ t ∈ after, ∃ others : List (DualLayerTerm F),
        LS = t.layer0 :: others.map (·.layer1) ∧
        (t :: others).Perm (before ++ after) := by
  intro after
  induction after with
  | nil =>
    intro before LS h
    rw [show perTermLists before ([] : List (DualLayerTerm F)) = []
      from rfl] at h
    simp at h
  | cons t₀ rest ih =>
    intro before LS h
    rw [perTermLists_cons] at h
    rcases List.mem_cons.mp h with hh | hmem
    · refine ⟨t₀, List.mem_cons_self _ _, before.reverse ++ rest, ?_, ?_⟩
      · rw [hh, List.map_append]
      · refine List.Perm.trans
          (@List.perm_middle _ t₀ before.reverse rest).symm ?_
        exact List.Perm.append_right (t₀ :: rest) before.reverse_perm
    · obtain ⟨t, ht, others, hLS, hperm⟩ := ih (before ++ [t₀]) LS hmem
      refine ⟨t, List.mem_cons_of_mem _ ht, others, hLS, ?_⟩
      rw [List.append_assoc, List.singleton_append] at hperm
      exact hperm

lemma perTermLists_mem_of :
    ∀ (after before : List (DualLayerTerm F)) (t : DualLayerTerm F),
      t ∈ after →
      ∃ LS ∈ perTermLists before after,
        ∃ others : List (DualLayerTerm F),
          LS = t.layer0 :: others.map (·.layer1) ∧
          (t :: others).Perm (before ++ after) := by
  intro after
  induction after with
  | nil => intro before t ht; simp at ht
  | cons t₀ rest ih =>
    intro before t ht
    rcases List.mem_cons.mp ht with hh | hmem
    · rw [perTermLists_cons, hh]
      refine ⟨_, List.mem_cons_self _ _, before.reverse ++ rest, ?_, ?_⟩
      · rw [List.map_append]
      · refine List.Perm.trans
          (@List.perm_middle _ t₀ before.reverse rest).symm ?_
        exact List.Perm.append_right (t₀ :: rest) before.reverse_perm
    · obtain ⟨LS, hLS, others, hform, hperm⟩ := ih (before ++ [t₀]) t hmem
      rw [perTermLists_cons]
      refine ⟨LS, List.mem_cons_of_mem _ hLS, others, hform, ?_⟩
      rw [List.append_assoc, List.singleton_append] at hperm
      exact hperm

lemma pairwise_keylt_of_keyle (l : List (F × ℕ))
    (hle : l.Pairwise (fun a b => b.1 ≤ a.1)) (hnd : l.Nodup)
    (hkey : ∀ x ∈ l, ∀ y ∈ l, x.1 = y.1 → x = y) :
    l.Pairwise (fun a b => b.1 < a.1) := by
  rw [List.pairwise_iff_getElem] at hle ⊢
  intro i j hi hj hij
  rcases lt_or_eq_of_le (hle i j hi hj hij) with h | h
  · exact h
  · exfalso
    have hxy : l[j] = l[i] :=
      hkey _ (List.getElem_mem hj) _ (List.getElem_mem hi) h
    rw [hnd.getElem_inj_iff] at hxy
    omega

lemma countP_le_of_subset_nodup {β : Type} (p : β → Bool) (u v : List β)
    (hu : u.Nodup) (hsub : ∀ x ∈ u, x ∈ v) : u.countP p ≤ v.countP p := by
  rw [List.countP_eq_length_filter, List.countP_eq_length_filter]
  refine List.Subperm.length_le ?_
  refine List.Nodup.subperm (hu.filter p) ?_
  intro x hx
  rw [List.mem_filter] at hx ⊢
  exact ⟨hsub x hx.1, hx.2⟩

lemma sorted_take_le (l : List (F × ℕ))
    (hs : l.Pairwise (fun a b => b.1 ≤ a.1)) (m : ℕ) (hm : m < l.length) :
    ∀ y ∈ l.take (m + 1), l[m].1 ≤ y.1 := by
  intro y hy
  obtain ⟨j, hj⟩ := List.mem_iff_getElem?.mp hy
  rw [List.getElem?_take] at hj
  by_cases hjm : j < m + 1
  · rw [if_pos hjm] at hj
    obtain ⟨hjl, hyv⟩ := List.getElem?_eq_some.mp hj
    rcases Nat.lt_or_ge j m with h | h
    · have hrel := (List.pairwise_iff_getElem.mp hs) j m hjl hm h
      rw [← hyv]
      exact hrel
    · have hjem : j = m := by omega
      subst hjem
      rw [← hyv]
  · rw [if_neg hjm] at hj
    simp at hj

/-- The canonical form of one per-term intersection: its candidate set `C`
is a nodup subset of the full AND set, entries are scored by the full
score, and a full-AND docID outside `C` is outside the term's first
layer. -/
lemma perTerm_front_char (k : ℕ) (hk : 0 < k) (idfOf : ℕ → F) (avgdl : F)
    (dl : ℕ → F) (terms : List (DualLayerTerm F))
    (hs0 : ∀ t ∈ terms, List.Chain' (· < ·) (layerDocIds t.layer0))
    (hs1 : ∀ t ∈ terms, List.Chain' (· < ·) (layerDocIds t.layer1))
    (hsub : ∀ t ∈ terms, ∀ d ∈ layerDocIds t.layer0,
      d ∈ layerDocIds t.layer1)
    (hfreq : ∀ t ∈ terms, ∀ d ∈ layerDocIds t.layer0,
      layerFreq t.layer0 d = layerFreq t.layer1 d)
    (hnum : ∀ t ∈ terms,
      t.layer0.numDocsCompleteList = t.layer1.numDocsCompleteList)
    (hdist : ∀ d₁ ∈ intersectDocs (terms.map (·.layer1)),
      ∀ d₂ ∈ intersectDocs (terms.map (·.layer1)),
        listsScore idfOf avgdl dl (terms.map (·.layer1)) d₁ =
          listsScore idfOf avgdl dl (terms.map (·.layer1)) d₂ → d₁ = d₂)
    (t : DualLayerTerm F) (others : List (DualLayerTerm F))
    (hperm : (t :: others).Perm terms) :
    ∃ C : List ℕ,
      intersectLists k idfOf avgdl dl (t.layer0 :: others.map (·.layer1)) =
        (sortEntriesDesc (entriesOf (listsScore idfOf avgdl dl
          (terms.map (·.layer1))) C)).take k ∧
      C.Nodup ∧ (∀ d ∈ C, d ∈ intersectDocs (terms.map (·.layer1))) ∧
      (∀ d ∈ intersectDocs (terms.map (·.layer1)), d ∉ C →
        d ∉ layerDocIds t.layer0) := by
  have ht : t ∈ terms := hperm.subset (List.mem_cons_self _ _)
  have hoth : ∀ o ∈ others, o ∈ terms :=
    fun o ho => hperm.subset (List.mem_cons_of_mem _ ho)
  have hne : terms ≠ [] := by
    intro h
    rw [h] at hperm
    have := hperm.length_eq
    simp at this
  have hL : List.Chain' (· < ·) (layerDocIds t.layer0) := hs0 t ht
  have hrest : ∀ L' ∈ others.map (·.layer1),
      List.Chain' (· < ·) (layerDocIds L') := by
    intro L' hL'
    obtain ⟨o, ho, rfl⟩ := List.mem_map.mp hL'
    exact hs1 o (hoth o ho)
  set C := intersectDocs (t.layer0 :: others.map (·.layer1)) with hCdef
  have hmemC : ∀ d, d ∈ C ↔ (d ∈ layerDocIds t.layer0 ∧
      ∀ L' ∈ others.map (·.layer1), d ∈ layerDocIds L') :=
    fun d => mem_intersectDocs hL hrest d
  have hCsub : ∀ d ∈ C, d ∈ intersectDocs (terms.map (·.layer1)) := by
    intro d hd
    rw [mem_intersectDocs_full hne hs1]
    intro t' ht'
    have ht'' : t' ∈ t :: others := hperm.symm.subset ht'
    rcases List.mem_cons.mp ht'' with hh | hmem'
    · rw [hh]
      exact hsub t ht d ((hmemC d).mp hd).1
    · exact ((hmemC d).mp hd).2 _ (List.mem_map_of_mem _ hmem')
  have hscore : ∀ d ∈ C,
      listsScore idfOf avgdl dl (t.layer0 :: others.map (·.layer1)) d =
        listsScore idfOf avgdl dl (terms.map (·.layer1)) d := by
    intro d hd
    rw [listsScore_cons, layerScore_layer01 idfOf avgdl dl t d
      (hnum t ht) (hfreq t ht d ((hmemC d).mp hd).1), ← listsScore_cons]
    exact listsScore_perm idfOf avgdl dl (hperm.map (·.layer1)) d
  refine ⟨C, ?_, intersectDocs_nodup hL hrest, hCsub, ?_⟩
  · rw [intersectLists_char k hk idfOf avgdl dl _ _ hL hrest
      (fun d₁ h₁ d₂ h₂ he => hdist d₁ (hCsub d₁ h₁) d₂ (hCsub d₂ h₂)
        (by rw [← hscore d₁ h₁, ← hscore d₂ h₂]; exact he))]
    have hent : entriesOf (listsScore idfOf avgdl dl
        (t.layer0 :: others.map (·.layer1))) C =
        entriesOf (listsScore idfOf avgdl dl (terms.map (·.layer1))) C := by
      rw [entriesOf, entriesOf]
      exact List.map_congr_left (fun d hd => by rw [hscore d hd])
    rw [hent]
  · intro d hdfull hdC hd0
    apply hdC
    rw [hmemC d]
    refine ⟨hd0, ?_⟩
    intro L' hL'
    obtain ⟨o, ho, rfl⟩ := List.mem_map.mp hL'
    exact (mem_intersectDocs_full hne hs1 d).mp hdfull o (hoth o ho)

/-- The abstract early-termination argument.  Each front is the
`k`-truncated descending entry list of a nodup candidate set `C ⊆ fullC`;
every full-AND docID is either in some front's candidate set or its score
is bounded by the threshold sum; the merged `k`-th score exceeds that sum;
scores are tie-free on `fullC`.  Then the merged deduplicated `k`-prefix
equals the full list's `k`-prefix. -/
lemma topk_agree_of_threshold (k : ℕ) (hk : 0 < k) (σ : ℕ → F)
    (fullC : List ℕ) (τsum : F) (fronts : List (List (F × ℕ)))
    (hfronts : ∀ fr ∈ fronts, ∃ C : List ℕ,
      fr = (sortEntriesDesc (entriesOf σ C)).take k ∧ C.Nodup ∧
      (∀ d ∈ C, d ∈ fullC))
    (hC : ∀ d ∈ fullC, (∃ fr ∈ fronts, ∃ C : List ℕ,
      (fr = (sortEntriesDesc (entriesOf σ C)).take k ∧ C.Nodup ∧
        (∀ d' ∈ C, d' ∈ fullC)) ∧ d ∈ C) ∨ σ d ≤ τsum)
    (hfullnodup : fullC.Nodup)
    (hdist : ∀ d₁ ∈ fullC, ∀ d₂ ∈ fullC, σ d₁ = σ d₂ → d₁ = d₂)
    (r : F × ℕ)
    (hr : (((sortEntriesDesc fronts.flatten).dedup).take k)[k - 1]? =
      some r)
    (hlt : τsum < r.1) :
    ((sortEntriesDesc fronts.flatten).dedup).take k =
      (sortEntriesDesc (entriesOf σ fullC)).take k := by
  have hcanon : ∀ x ∈ fronts.flatten, ∃ d ∈ fullC, x = (σ d, d) := by
    intro x hx
    obtain ⟨fr, hfr, hxfr⟩ := List.mem_flatten.mp hx
    obtain ⟨C, rfl, hnd, hsubC⟩ := hfronts fr hfr
    have hx'' : x ∈ entriesOf σ C :=
      (sortEntriesDesc_perm _).subset (List.mem_of_mem_take hxfr)
    obtain ⟨d, hd, rfl⟩ := List.mem_map.mp hx''
    exact ⟨d, hsubC d hd, rfl⟩
  have hs_sorted : ((sortEntriesDesc fronts.flatten).dedup).Pairwise
      (fun a b => b.1 ≤ a.1) :=
    List.Pairwise.sublist (List.dedup_sublist _) (sortEntriesDesc_sorted _)
  have hs_sub_flat : ∀ x ∈ (sortEntriesDesc fronts.flatten).dedup,
      x ∈ fronts.flatten :=
    fun x hx => (sortEntriesDesc_perm _).subset
      ((List.dedup_sublist _).subset hx)
  have hs_key : ∀ x ∈ (sortEntriesDesc fronts.flatten).dedup,
      ∀ y ∈ (sortEntriesDesc fronts.flatten).dedup, x.1 = y.1 → x = y := by
    intro x hx y hy hxy
    obtain ⟨d₁, hd₁, rfl⟩ := hcanon x (hs_sub_flat x hx)
    obtain ⟨d₂, hd₂, rfl⟩ := hcanon y (hs_sub_flat y hy)
    rw [show d₁ = d₂ from hdist d₁ hd₁ d₂ hd₂ hxy]
  have hs_strict := pairwise_keylt_of_keyle _ hs_sorted
    (List.nodup_dedup _) hs_key
  have hent_nodup : (entriesOf σ fullC).Nodup :=
    List.Nodup.map_on (fun x _ y _ h => congrArg Prod.snd h) hfullnodup
  have ht_nodup : (sortEntriesDesc (entriesOf σ fullC)).Nodup :=
    ((sortEntriesDesc_perm _).nodup_iff).mpr hent_nodup
  have ht_canon : ∀ x ∈ sortEntriesDesc (entriesOf σ fullC),
      ∃ d ∈ fullC, x = (σ d, d) := by
    intro x hx
    have := (sortEntriesDesc_perm _).subset hx
    obtain ⟨d, hd, rfl⟩ := List.mem_map.mp this
    exact ⟨d, hd, rfl⟩
  have ht_key : ∀ x ∈ sortEntriesDesc (entriesOf σ fullC),
      ∀ y ∈ sortEntriesDesc (entriesOf σ fullC), x.1 = y.1 → x = y := by
    intro x hx y hy hxy
    obtain ⟨d₁, hd₁, rfl⟩ := ht_canon x hx
    obtain ⟨d₂, hd₂, rfl⟩ := ht_canon y hy
    rw [show d₁ = d₂ from hdist d₁ hd₁ d₂ hd₂ hxy]
  have ht_strict := pairwise_keylt_of_keyle _ (sortEntriesDesc_sorted _)
    ht_nodup ht_key
  have hsub_st : ∀ x ∈ (sortEntriesDesc fronts.flatten).dedup,
      x ∈ sortEntriesDesc (entriesOf σ fullC) := by
    intro x hx
    obtain ⟨d, hd, rfl⟩ := hcanon x (hs_sub_flat x hx)
    exact (sortEntriesDesc_perm _).mem_iff.mpr
      (List.mem_map_of_mem _ hd)
  have hr' : ((sortEntriesDesc fronts.flatten).dedup)[k - 1]? = some r := by
    rw [List.getElem?_take, if_pos (by omega)] at hr
    exact hr
  obtain ⟨hrlen, hrval⟩ := List.getElem?_eq_some.mp hr'
  have htake_len : (((sortEntriesDesc fronts.flatten).dedup).take k).length
      = k := by
    rw [List.length_take]
    have : k ≤ ((sortEntriesDesc fronts.flatten).dedup).length := by omega
    omega
  have htop : ∀ x ∈ (sortEntriesDesc (entriesOf σ fullC)).take k,
      x ∈ (sortEntriesDesc fronts.flatten).dedup := by
    intro x hx
    have hxt : x ∈ sortEntriesDesc (entriesOf σ fullC) :=
      List.mem_of_mem_take hx
    obtain ⟨d, hd, rfl⟩ := ht_canon x hxt
    have hcount_t : (sortEntriesDesc (entriesOf σ fullC)).countP
        (fun y => decide ((σ d, d).1 < y.1)) < k :=
      countP_lt_of_mem_take _ _ k ht_strict hx
    rcases hC d hd with ⟨fr, hfr, C, ⟨hfrform, hndC, hCsub⟩, hdC⟩ | hbound
    · have hcount_full : (entriesOf σ fullC).countP
          (fun y => decide ((σ d, d).1 < y.1)) < k := by
        have := @List.Perm.countP_congr _ _ _
          (sortEntriesDesc_perm (entriesOf σ fullC))
          (fun y => decide ((σ d, d).1 < y.1))
          (fun y => decide ((σ d, d).1 < y.1)) (fun _ _ => rfl)
        omega
      have hCent_nodup : (entriesOf σ C).Nodup :=
        List.Nodup.map_on (fun x _ y _ h => congrArg Prod.snd h) hndC
      have hsubE : ∀ y ∈ entriesOf σ C, y ∈ entriesOf σ fullC := by
        intro y hy
        obtain ⟨d', hd', rfl⟩ := List.mem_map.mp hy
        exact List.mem_map_of_mem _ (hCsub d' hd')
      have hcount_C : (entriesOf σ C).countP
          (fun y => decide ((σ d, d).1 < y.1)) ≤
          (entriesOf σ fullC).countP
          (fun y => decide ((σ d, d).1 < y.1)) :=
        countP_le_of_subset_nodup _ _ _ hCent_nodup hsubE
      have hcount_sC : (sortEntriesDesc (entriesOf σ C)).countP
          (fun y => decide ((σ d, d).1 < y.1)) =
          (entriesOf σ C).countP (fun y => decide ((σ d, d).1 < y.1)) :=
        (sortEntriesDesc_perm (entriesOf σ C)).countP_congr (fun _ _ => rfl)
      have hCkey : ∀ x ∈ sortEntriesDesc (entriesOf σ C),
          ∀ y ∈ sortEntriesDesc (entriesOf σ C), x.1 = y.1 → x = y := by
        intro x hx' y hy' hxy
        have hx'' := (sortEntriesDesc_perm _).subset hx'
        have hy'' := (sortEntriesDesc_perm _).subset hy'
        obtain ⟨d₁, hd₁, rfl⟩ := List.mem_map.mp hx''
        obtain ⟨d₂, hd₂, rfl⟩ := List.mem_map.mp hy''
        rw [show d₁ = d₂ from hdist d₁ (hCsub d₁ hd₁) d₂ (hCsub d₂ hd₂) hxy]
      have hCstrict := pairwise_keylt_of_keyle _ (sortEntriesDesc_sorted _)
        (((sortEntriesDesc_perm _).nodup_iff).mpr hCent_nodup) hCkey
      have hxC : (σ d, d) ∈ sortEntriesDesc (entriesOf σ C) :=
        (sortEntriesDesc_perm _).mem_iff.mpr (List.mem_map_of_mem _ hdC)
      have hxtake : (σ d, d) ∈ (sortEntriesDesc (entriesOf σ C)).take k :=
        mem_take_of_countP_lt _ _ k hCstrict hxC (by omega)
      have hxfr : (σ d, d) ∈ fr := by
        rw [hfrform]
        exact hxtake
      rw [List.mem_dedup]
      exact (sortEntriesDesc_perm _).mem_iff.mpr
        (List.mem_flatten.mpr ⟨fr, hfr, hxfr⟩)
    · exfalso
      have htk_sub : ∀ y ∈ ((sortEntriesDesc fronts.flatten).dedup).take k,
          y ∈ List.filter (fun y => decide ((σ d, d).1 < y.1))
            (sortEntriesDesc (entriesOf σ fullC)) := by
        intro y hy
        rw [List.mem_filter]
        refine ⟨hsub_st y (List.mem_of_mem_take hy), ?_⟩
        simp only [decide_eq_true_eq]
        have hyr : r.1 ≤ y.1 := by
          have hstep := sorted_take_le _ hs_sorted (k - 1) hrlen
          rw [show k - 1 + 1 = k by omega] at hstep
          rw [← hrval]
          exact hstep y hy
        exact lt_of_le_of_lt hbound (lt_of_lt_of_le hlt hyr)
      have htknodup :
          (((sortEntriesDesc fronts.flatten).dedup).take k).Nodup :=
        List.Nodup.sublist (List.take_sublist _ _) (List.nodup_dedup _)
      have hlen_le := (List.Nodup.subperm htknodup htk_sub).length_le
      rw [htake_len] at hlen_le
      rw [List.countP_eq_length_filter] at hcount_t
      omega
  exact take_eq_take_of_topk _ k _ hs_strict ht_strict hsub_st htop

/-- **C2 (amended)** `ProcessLayeredQuery` for a dual-layered overlapping
index (`kDualLayeredOverlappingDaat`, every term with two layers) declares
the result final exactly when the merged per-term intersections hold a
`k`-th result whose score strictly exceeds the sum over the terms of
`layer_score_threshold(last layer)`; otherwise the query is rerun as
DAAT-AND (`IntersectLists`) on the last layers.  Under the layered-index
invariants — strictly ascending docID streams, layer 0 a sub-list of the
last layer agreeing with it on frequencies and `num_docs_complete_list`,
and each term's last-layer threshold bounding the scores of its postings
outside layer 0 — and provided no two distinct docIDs of the full
intersection tie on their total BM25 score, early termination is
rank-safe: the returned result list equals the DAAT-AND result on the
full last-layer lists, scores included.  (The tie-freeness hypothesis is
necessary: see `processLayeredQuery_tie_counterexample`.) -/
theorem processLayeredQuery_rank_safe (k : ℕ) (idfOf : ℕ → F) (avgdl : F)
    (dl : ℕ → F) (terms : List (DualLayerTerm F)) (hk : 0 < k)
    (hs0 : ∀ t ∈ terms, List.Chain' (· < ·) (layerDocIds t.layer0))
    (hs1 : ∀ t ∈ terms, List.Chain' (· < ·) (layerDocIds t.layer1))
    (hsub : ∀ t ∈ terms, ∀ d ∈ layerDocIds t.layer0,
      d ∈ layerDocIds t.layer1)
    (hfreq : ∀ t ∈ terms, ∀ d ∈ layerDocIds t.layer0,
      layerFreq t.layer0 d = layerFreq t.layer1 d)
    (hnum : ∀ t ∈ terms,
      t.layer0.numDocsCompleteList = t.layer1.numDocsCompleteList)
    (hthr : ∀ t ∈ terms, ∀ d ∈ layerDocIds t.layer1,
      d ∉ layerDocIds t.layer0 →
        layerScore idfOf avgdl dl t.layer1 d ≤ t.lastThreshold)
    (hdist : ∀ d₁ ∈ intersectDocs (terms.map (·.layer1)),
      ∀ d₂ ∈ intersectDocs (terms.map (·.layer1)),
        listsScore idfOf avgdl dl (terms.map (·.layer1)) d₁ =
          listsScore idfOf avgdl dl (terms.map (·.layer1)) d₂ → d₁ = d₂) :
    ((processLayeredQuery k idfOf avgdl dl terms).2 = true ↔
      ∃ r, (mergedTopK k ((perTermLists [] terms).map
        (intersectLists k idfOf avgdl dl)))[k - 1]? = some r ∧
        (terms.map (·.lastThreshold)).sum < r.1) ∧
    ((processLayeredQuery k idfOf avgdl dl terms).2 = true →
      (processLayeredQuery k idfOf avgdl dl terms).1 =
        intersectLists k idfOf avgdl dl (terms.map (·.layer1))) := by
  have hdisp : (processLayeredQuery k idfOf avgdl dl terms).2 = true ↔
      ∃ r, (mergedTopK k ((perTermLists [] terms).map
        (intersectLists k idfOf avgdl dl)))[k - 1]? = some r ∧
        (terms.map (·.lastThreshold)).sum < r.1 := by
    cases hm : (mergedTopK k ((perTermLists [] terms).map
        (intersectLists k idfOf avgdl dl)))[k - 1]? with
    | none =>
      rw [processLayeredQuery_of_none hm]
      simp
    | some r₀ =>
      by_cases hlt : (terms.map (·.lastThreshold)).sum < r₀.1
      · rw [processLayeredQuery_of_lt hm hlt]
        constructor
        · intro _
          exact ⟨r₀, rfl, hlt⟩
        · intro _
          rfl
      · rw [processLayeredQuery_of_ge hm hlt]
        constructor
        · intro h
          exact absurd h (by simp)
        · rintro ⟨r, hr, hlt'⟩
          exfalso
          injection hr with h
          rw [← h] at hlt'
          exact hlt hlt'
  refine ⟨hdisp, ?_⟩
  intro hET
  obtain ⟨r, hr, hlt⟩ := hdisp.mp hET
  cases terms with
  | nil =>
    exfalso
    rw [show mergedTopK k ((perTermLists []
        ([] : List (DualLayerTerm F))).map
        (intersectLists k idfOf avgdl dl)) = [] from by
      rw [mergedTopK]
      exact List.take_nil] at hr
    simp at hr
  | cons t₀ ts =>
    have hfl : List.Chain' (· < ·) (layerDocIds t₀.layer1) :=
      hs1 t₀ (List.mem_cons_self _ _)
    have hfr2 : ∀ L' ∈ ts.map (·.layer1),
        List.Chain' (· < ·) (layerDocIds L') := by
      intro L' hL'
      obtain ⟨o, ho, rfl⟩ := List.mem_map.mp hL'
      exact hs1 o (List.mem_cons_of_mem _ ho)
    have hne : (t₀ :: ts : List (DualLayerTerm F)) ≠ [] := by simp
    have hfullnodup : (intersectDocs ((t₀ :: ts).map (·.layer1))).Nodup := by
      rw [List.map_cons]
      exact intersectDocs_nodup hfl hfr2
    have hints : ∀ fr ∈ (perTermLists [] (t₀ :: ts)).map
        (intersectLists k idfOf avgdl dl), ∃ C : List ℕ,
        fr = (sortEntriesDesc (entriesOf (listsScore idfOf avgdl dl
          ((t₀ :: ts).map (·.layer1))) C)).take k ∧ C.Nodup ∧
        (∀ d ∈ C, d ∈ intersectDocs ((t₀ :: ts).map (·.layer1))) := by
      intro fr hfr
      obtain ⟨LS, hLS, rfl⟩ := List.mem_map.mp hfr
      obtain ⟨t, ht, others, rfl, hperm⟩ :=
        perTermLists_mem (t₀ :: ts) [] LS hLS
      obtain ⟨C, hchar, hnd, hsubC, -⟩ := perTerm_front_char k hk idfOf
        avgdl dl (t₀ :: ts) hs0 hs1 hsub hfreq hnum hdist t others hperm
      exact ⟨C, hchar, hnd, hsubC⟩
    have hcanon : ∀ x ∈ ((perTermLists [] (t₀ :: ts)).map
        (intersectLists k idfOf avgdl dl)).flatten,
        ∃ d ∈ intersectDocs ((t₀ :: ts).map (·.layer1)),
          x = (listsScore idfOf avgdl dl ((t₀ :: ts).map (·.layer1)) d, d)
        := by
      intro x hx
      obtain ⟨fr, hfr, hxfr⟩ := List.mem_flatten.mp hx
      obtain ⟨C, rfl, hnd, hsubC⟩ := hints fr hfr
      have hx'' := (sortEntriesDesc_perm _).subset
        (List.mem_of_mem_take hxfr)
      obtain ⟨d, hd, rfl⟩ := List.mem_map.mp hx''
      exact ⟨d, hsubC d hd, rfl⟩
    have hfs : ∀ fr ∈ (perTermLists [] (t₀ :: ts)).map
        (intersectLists k idfOf avgdl dl),
        fr.Pairwise (fun a b => b.1 ≤ a.1) := by
      intro fr hfr
      obtain ⟨C, rfl, -, -⟩ := hints fr hfr
      exact List.Pairwise.sublist (List.take_sublist _ _)
        (sortEntriesDesc_sorted _)
    have hkeyflat : ∀ x ∈ ((perTermLists [] (t₀ :: ts)).map
        (intersectLists k idfOf avgdl dl)).flatten,
        ∀ y ∈ ((perTermLists [] (t₀ :: ts)).map
          (intersectLists k idfOf avgdl dl)).flatten,
        x.1 = y.1 → x = y := by
      intro x hx y hy hxy
      obtain ⟨d₁, hd₁, rfl⟩ := hcanon x hx
      obtain ⟨d₂, hd₂, rfl⟩ := hcanon y hy
      rw [show d₁ = d₂ from hdist d₁ hd₁ d₂ hd₂ hxy]
    have hdocflat : ∀ x ∈ ((perTermLists [] (t₀ :: ts)).map
        (intersectLists k idfOf avgdl dl)).flatten,
        ∀ y ∈ ((perTermLists [] (t₀ :: ts)).map
          (intersectLists k idfOf avgdl dl)).flatten,
        x.2 = y.2 → x = y := by
      intro x hx y hy hxy
      obtain ⟨d₁, hd₁, rfl⟩ := hcanon x hx
      obtain ⟨d₂, hd₂, rfl⟩ := hcanon y hy
      rw [show d₁ = d₂ from hxy]
    have hmerged := mergedTopK_eq_dedup k _ hfs hkeyflat hdocflat
    have hCprop : ∀ d ∈ intersectDocs ((t₀ :: ts).map (·.layer1)),
        (∃ fr ∈ (perTermLists [] (t₀ :: ts)).map
          (intersectLists k idfOf avgdl dl), ∃ C : List ℕ,
          (fr = (sortEntriesDesc (entriesOf (listsScore idfOf avgdl dl
            ((t₀ :: ts).map (·.layer1))) C)).take k ∧ C.Nodup ∧
            (∀ d' ∈ C, d' ∈ intersectDocs ((t₀ :: ts).map (·.layer1)))) ∧
          d ∈ C) ∨
        listsScore idfOf avgdl dl ((t₀ :: ts).map (·.layer1)) d ≤
          ((t₀ :: ts).map (·.lastThreshold)).sum := by
      intro d hd
      by_cases hex : ∃ fr ∈ (perTermLists [] (t₀ :: ts)).map
          (intersectLists k idfOf avgdl dl), ∃ C : List ℕ,
          (fr = (sortEntriesDesc (entriesOf (listsScore idfOf avgdl dl
            ((t₀ :: ts).map (·.layer1))) C)).take k ∧ C.Nodup ∧
            (∀ d' ∈ C, d' ∈ intersectDocs ((t₀ :: ts).map (·.layer1)))) ∧
          d ∈ C
      · exact Or.inl hex
      · right
        have hterm : ∀ t ∈ t₀ :: ts, d ∉ layerDocIds t.layer0 := by
          intro t ht
          obtain ⟨LS, hLS, others, hform, hperm⟩ :=
            perTermLists_mem_of (t₀ :: ts) [] t ht
          obtain ⟨C, hchar, hnd, hsubC, hmiss⟩ := perTerm_front_char k hk
            idfOf avgdl dl (t₀ :: ts) hs0 hs1 hsub hfreq hnum hdist t
            others hperm
          by_cases hdC : d ∈ C
          · exfalso
            apply hex
            refine ⟨intersectLists k idfOf avgdl dl LS,
              List.mem_map_of_mem _ hLS, C, ⟨?_, hnd, hsubC⟩, hdC⟩
            rw [hform]
            exact hchar
          · exact hmiss d hd hdC
        have hdall : ∀ t ∈ t₀ :: ts, d ∈ layerDocIds t.layer1 :=
          (mem_intersectDocs_full hne hs1 d).mp hd
        have hbound : ∀ t ∈ t₀ :: ts,
            layerScore idfOf avgdl dl t.layer1 d ≤ t.lastThreshold :=
          fun t ht => hthr t ht d (hdall t ht) (hterm t ht)
        have hσd : listsScore idfOf avgdl dl ((t₀ :: ts).map (·.layer1)) d
            = ((t₀ :: ts).map (fun t =>
              layerScore idfOf avgdl dl t.layer1 d)).sum := by
          rw [listsScore, List.map_map]
          rfl
        rw [hσd]
        exact List.sum_le_sum hbound
    have hRHS : intersectLists k idfOf avgdl dl
        ((t₀ :: ts).map (·.layer1)) =
        (sortEntriesDesc (entriesOf (listsScore idfOf avgdl dl
          ((t₀ :: ts).map (·.layer1)))
          (intersectDocs ((t₀ :: ts).map (·.layer1))))).take k := by
      rw [List.map_cons]
      exact intersectLists_char k hk idfOf avgdl dl _ _ hfl hfr2 hdist
    have hrw := processLayeredQuery_of_lt hr hlt
    rw [hmerged] at hr
    rw [hrw]
    show mergedTopK k ((perTermLists [] (t₀ :: ts)).map
        (intersectLists k idfOf avgdl dl)) =
      intersectLists k idfOf avgdl dl ((t₀ :: ts).map (·.layer1))
    rw [hmerged, hRHS]
    exact topk_agree_of_threshold k hk
      (listsScore idfOf avgdl dl ((t₀ :: ts).map (·.layer1)))
      (intersectDocs ((t₀ :: ts).map (·.layer1)))
      (((t₀ :: ts).map (·.lastThreshold)).sum)
      ((perTermLists [] (t₀ :: ts)).map (intersectLists k idfOf avgdl dl))
      hints hCprop hfullnodup hdist r hr hlt

/-! ### A tie-free early-terminating instance, witnessing the amended C2

The query `[ctTermA, ctTermA]` with `k = 1`: both candidate sets are
`{5}`, the full intersection is `{5, 9}` with distinct scores `3·I` and
`2·I` (`I = realIdf 10 2 > 0`), the threshold sum is `2·I < 3·I`, so early
termination fires and returns the same list as the full DAAT-AND. -/

noncomputable def wtScore : ℝ :=
  listsScore (realIdf 10) 4 ctDl [ctL0A, ctL1A] 5

lemma wt_mem {t : DualLayerTerm ℝ} (ht : t ∈ [ctTermA, ctTermA]) :
    t = ctTermA := by
  rcases List.mem_cons.mp ht with h | h
  · exact h
  · rcases List.mem_cons.mp h with h' | h'
    · exact h'
    · simp at h'

lemma wt_int :
    intersectLists 1 (realIdf 10) 4 ctDl [ctL0A, ctL1A] =
      [(wtScore, 5)] := by
  rw [intersectLists_cons]
  rw [show intersectLoop ([ctL1A].map layerDocIds) (layerDocIds ctL0A) 0 =
    [5] from by decide]
  rw [topkFoldHeap_singleton 1 _ 5 (by norm_num)]
  rfl

lemma wt_score_eval : wtScore = 3 * realIdf 10 2 := by
  rw [wtScore, listsScore]
  simp only [List.map_cons, List.map_nil, List.sum_cons, List.sum_nil,
    add_zero, layerScore]
  rw [show layerFreq ctL0A 5 = 2 from by decide,
    show layerFreq ctL1A 5 = 2 from by decide,
    show ctL0A.numDocsCompleteList = 2 from rfl,
    show ctL1A.numDocsCompleteList = 2 from rfl,
    show ctDl 5 = (4 : ℝ) from rfl, ct_bm25_two]
  ring

lemma wt_score9 :
    layerScore (realIdf 10) 4 ctDl ctL1A 9 = realIdf 10 2 := by
  rw [layerScore, show layerFreq ctL1A 9 = 1 from by decide,
    show ctL1A.numDocsCompleteList = 2 from rfl,
    show ctDl 9 = (4 : ℝ) from rfl, ct_bm25_one, mul_one]

lemma wt_sigma_full_5 :
    listsScore (realIdf 10) 4 ctDl [ctL1A, ctL1A] 5 =
      3 * realIdf 10 2 := by
  rw [listsScore]
  simp only [List.map_cons, List.map_nil, List.sum_cons, List.sum_nil,
    add_zero, layerScore]
  rw [show layerFreq ctL1A 5 = 2 from by decide,
    show ctL1A.numDocsCompleteList = 2 from rfl,
    show ctDl 5 = (4 : ℝ) from rfl, ct_bm25_two]
  ring

lemma wt_sigma_full_9 :
    listsScore (realIdf 10) 4 ctDl [ctL1A, ctL1A] 9 =
      2 * realIdf 10 2 := by
  rw [listsScore]
  simp only [List.map_cons, List.map_nil, List.sum_cons, List.sum_nil,
    add_zero, layerScore]
  rw [show layerFreq ctL1A 9 = 1 from by decide,
    show ctL1A.numDocsCompleteList = 2 from rfl,
    show ctDl 9 = (4 : ℝ) from rfl, ct_bm25_one]
  ring

lemma wt_merged :
    mergedTopK 1 ((perTermLists [] [ctTermA, ctTermA]).map
      (intersectLists 1 (realIdf 10) 4 ctDl)) = [(wtScore, 5)] := by
  rw [show perTermLists [] [ctTermA, ctTermA] =
    [[ctL0A, ctL1A], [ctL0A, ctL1A]] from rfl]
  rw [List.map_cons, List.map_cons, List.map_nil, wt_int]
  exact mergedTopK_pair (wtScore, 5) (wtScore, 5) (Or.inr ⟨rfl, le_refl _⟩)

lemma wt_thr_lt :
    ([ctTermA, ctTermA].map (·.lastThreshold)).sum < wtScore := by
  rw [show ([ctTermA, ctTermA].map (·.lastThreshold)).sum =
    realIdf 10 2 + (realIdf 10 2 + 0) from rfl, wt_score_eval]
  nlinarith [ct_idf_pos]

lemma wt_ET :
    (processLayeredQuery 1 (realIdf 10) 4 ctDl [ctTermA, ctTermA]).2 =
      true := by
  have hm : (mergedTopK 1 ((perTermLists [] [ctTermA, ctTermA]).map
      (intersectLists 1 (realIdf 10) 4 ctDl)))[1 - 1]? =
      some (wtScore, 5) := by
    rw [wt_merged]
    rfl
  rw [processLayeredQuery_of_lt hm wt_thr_lt]

lemma wt_hdist :
    ∀ d₁ ∈ intersectDocs ([ctTermA, ctTermA].map (·.layer1)),
      ∀ d₂ ∈ intersectDocs ([ctTermA, ctTermA].map (·.layer1)),
        listsScore (realIdf 10) 4 ctDl
            ([ctTermA, ctTermA].map (·.layer1)) d₁ =
          listsScore (realIdf 10) 4 ctDl
            ([ctTermA, ctTermA].map (·.layer1)) d₂ → d₁ = d₂ := by
  have hform : ([ctTermA, ctTermA].map (·.layer1)) = [ctL1A, ctL1A] := rfl
  rw [hform]
  have hC : intersectDocs [ctL1A, ctL1A] = [5, 9] := by decide
  rw [hC]
  have hne : (3 : ℝ) * realIdf 10 2 ≠ 2 * realIdf 10 2 := by
    have := ct_idf_pos
    intro h
    nlinarith
  intro d₁ h₁ d₂ h₂ he
  rcases show d₁ = 5 ∨ d₁ = 9 from by simpa using h₁ with h1 | h1 <;>
    rcases show d₂ = 5 ∨ d₂ = 9 from by simpa using h₂ with h2 | h2 <;>
      subst h1 <;> subst h2
  · rfl
  · rw [wt_sigma_full_5, wt_sigma_full_9] at he
    exact absurd he hne
  · rw [wt_sigma_full_5, wt_sigma_full_9] at he
    exact absurd he.symm hne
  · rfl

/-- Witness for `processLayeredQuery_rank_safe`: on the tie-free instance
above the layered evaluator early-terminates and returns exactly the full
DAAT-AND result. -/
theorem processLayeredQuery_rank_safe_witness :
    (processLayeredQuery 1 (realIdf 10) 4 ctDl [ctTermA, ctTermA]).2 =
        true ∧
      (processLayeredQuery 1 (realIdf 10) 4 ctDl [ctTermA, ctTermA]).1 =
        intersectLists 1 (realIdf 10) 4 ctDl
          ([ctTermA, ctTermA].map (·.layer1)) := by
  refine ⟨wt_ET, ?_⟩
  refine (processLayeredQuery_rank_safe 1 (realIdf 10) 4 ctDl
    [ctTermA, ctTermA] (by norm_num) ?_ ?_ ?_ ?_ ?_ ?_ wt_hdist).2 wt_ET
  · intro t ht
    rw [wt_mem ht]
    show List.Chain' (· < ·) [(5 : ℕ)]
    simp
  · intro t ht
    rw [wt_mem ht]
    show List.Chain' (· < ·) [(5 : ℕ), 9]
    simp [List.chain'_cons]
  · intro t ht d hd
    rw [wt_mem ht] at hd ⊢
    have h5 : d = 5 := by
      rw [show ctTermA.layer0 = ctL0A from rfl] at hd
      simpa [layerDocIds, ctL0A] using hd
    subst h5
    decide
  · intro t ht d hd
    rw [wt_mem ht] at hd ⊢
    have h5 : d = 5 := by
      rw [show ctTermA.layer0 = ctL0A from rfl] at hd
      simpa [layerDocIds, ctL0A] using hd
    subst h5
    decide
  · intro t ht
    rw [wt_mem ht]
    decide
  · intro t ht d hd hnot
    rw [wt_mem ht] at hd hnot ⊢
    have h59 : d = 5 ∨ d = 9 := by
      rw [show ctTermA.layer1 = ctL1A from rfl] at hd
      simpa [layerDocIds, ctL1A] using hd
    rcases h59 with h | h
    · subst h
      exact absurd (by decide : (5 : ℕ) ∈ layerDocIds ctTermA.layer0) hnot
    · subst h
      show layerScore (realIdf 10) 4 ctDl ctL1A 9 ≤ realIdf 10 2
      rw [wt_score9]

end PolyIR
